import Mathlib

/-!
Verification of the text-layout and rendering core of the Social-text repository.

The definitions below are a shallow embedding of the TypeScript source:
  - the `ImageGenerator` methods `generateImage`, `wrapText`, `measureWrapped`,
    `drawText` and `normalizeFontFamily`,
  - the history POST handler validation.

Strings are modelled as `List Char` (matching JavaScript iteration over code
points), pixel quantities as `ℚ` (JS floating point modelled as exact
rationals; all constants appearing in the source, 1.6, 0.5, 0.9, are exact
decimal fractions), and the canvas text-measurement collaborator
(`ctx.measureText(...).width` under the active font) as an abstract function
`m : List Char → ℚ` (parameterised by the font size where the source changes
`ctx.font`).

While loops are embedded with an explicit fuel argument that provably
dominates the number of iterations of the source loop (each loop iteration
consumes at least one character / one font-size step).
-/

set_option maxRecDepth 10000

abbrev Str := List Char

/-- JavaScript whitespace for `\s`, `trim()` (ASCII part; the exotic unicode
space classes are not exercised by any input considered here). -/
def isJsWs (c : Char) : Bool :=
  c = ' ' || c = '\t' || c = '\n' || c = '\r' || c = '\x0b' || c = '\x0c'

/-- JavaScript `String.prototype.split(sep)` for a single-character separator,
on `List`s: always returns at least one (possibly empty) piece. -/
def splitOnElem {α : Type} [DecidableEq α] (sep : α) : List α → List (List α)
  | [] => [[]]
  | x :: xs =>
    match splitOnElem sep xs with
    | r :: rs => if x = sep then [] :: r :: rs else (x :: r) :: rs
    | [] => [[]]

/-- The paragraph-break sentinel `"__PARA_BREAK__"` used by `wrapText` and
interpreted by `drawText`. -/
def paraBreakMarker : Str := "__PARA_BREAK__".toList

/-- `paragraph.trim() === ""` in the source. -/
def isBlank (s : Str) : Bool := s.all isJsWs

/-- Result type of `wrapText`. -/
structure WrapResult where
  lines : List Str
  paragraphCount : ℕ
deriving DecidableEq

/-- The two mutable locals of the `wrapText` paragraph loop:
`allLines` and `currentLine`. -/
structure WrapSt where
  allLines : List Str
  currentLine : Str
deriving DecidableEq

/-- `pushLine` from `wrapText`:
pushes `currentLine` unless it is empty and the previous entry was already an
empty line, then resets `currentLine`. -/
def pushLine (st : WrapSt) : WrapSt :=
  if st.currentLine.length > 0 ∨ st.allLines.length = 0 ∨ st.allLines.getLast? ≠ some [] then
    { allLines := st.allLines ++ [st.currentLine], currentLine := [] }
  else
    { allLines := st.allLines, currentLine := [] }

/-- The character loop of `splitLongWord`: breaks a word into chunks whose
measured width fits `maxWidth`, force-emitting a single character when even
one character alone overflows.  State is `(allLines, chunk)`. -/
def splitChars (m : Str → ℚ) (maxWidth : ℚ) : List Char → List Str × Str → List Str × Str
  | [], st => st
  | ch :: rest, (acc, chunk) =>
    let next := chunk ++ [ch]
    if m next > maxWidth then
      if chunk = [] then
        splitChars m maxWidth rest (acc ++ [[ch]], [])
      else
        splitChars m maxWidth rest (acc ++ [chunk], [ch])
    else
      splitChars m maxWidth rest (acc, next)

/-- `splitLongWord` from `wrapText`: split the word by characters, then try to
merge the final partial chunk onto `currentLine`. -/
def splitLongWord (m : Str → ℚ) (maxWidth : ℚ) (word : Str) (st : WrapSt) : WrapSt :=
  let res := splitChars m maxWidth word (st.allLines, [])
  let st1 : WrapSt := { allLines := res.1, currentLine := st.currentLine }
  let chunk := res.2
  if chunk ≠ [] then
    if st1.currentLine ≠ [] then
      let candidate := st1.currentLine ++ [' '] ++ chunk
      if m candidate ≤ maxWidth then
        { st1 with currentLine := candidate }
      else
        let st2 := pushLine st1
        { st2 with currentLine := chunk }
    else
      { st1 with currentLine := chunk }
  else
    st1

/-- The word loop of `wrapText` over one paragraph. -/
def wrapWords (m : Str → ℚ) (maxWidth : ℚ) : List Str → WrapSt → WrapSt
  | [], st => st
  | word :: ws, st =>
    let tentative := st.currentLine ++ (if st.currentLine = [] then [] else [' ']) ++ word
    if m tentative ≤ maxWidth then
      wrapWords m maxWidth ws { st with currentLine := tentative }
    else
      let st1 := if st.currentLine ≠ [] then pushLine st else st
      let st2 :=
        if m word ≤ maxWidth then { st1 with currentLine := word }
        else splitLongWord m maxWidth word st1
      wrapWords m maxWidth ws st2

/-- The body of the paragraph loop of `wrapText` (for one paragraph),
appending to the accumulated `allLines`. -/
def wrapParagraph (m : Str → ℚ) (maxWidth : ℚ) (para : Str) (acc : List Str) : List Str :=
  if isBlank para then
    acc ++ [[]]
  else
    let st := wrapWords m maxWidth (splitOnElem ' ' para) { allLines := acc, currentLine := [] }
    if st.currentLine ≠ [] then (pushLine st).allLines else st.allLines

/-- The paragraph loop of `wrapText`: a `"__PARA_BREAK__"` entry is pushed
before every paragraph except the first. -/
def wrapParas (m : Str → ℚ) (maxWidth : ℚ) : List Str → Bool → List Str → List Str
  | [], _, acc => acc
  | p :: ps, isFirst, acc =>
    let acc1 := if isFirst then acc else acc ++ [paraBreakMarker]
    wrapParas m maxWidth ps false (wrapParagraph m maxWidth p acc1)

/-- `wrapText(text, maxWidth, fontSize, fontFamily)`; the font size and family
are absorbed into the abstract measure `m`. -/
def wrapText (m : Str → ℚ) (maxWidth : ℚ) (text : Str) : WrapResult :=
  let paragraphs := splitOnElem '\n' text
  { lines := wrapParas m maxWidth paragraphs true []
    paragraphCount := paragraphs.length }

/-- The word loop of `measureWrapped` for one paragraph; state is
`(totalHeight, current)`, mirroring the two mutable locals. -/
def measureParaWords (m : Str → ℚ) (maxWidth : ℚ) (lineHeight : ℚ) :
    List Str → Str → ℚ → ℚ × Str
  | [], current, h => (h, current)
  | word :: ws, current, h =>
    let tentative := current ++ (if current = [] then [] else [' ']) ++ word
    if m tentative ≤ maxWidth then
      measureParaWords m maxWidth lineHeight ws tentative h
    else
      measureParaWords m maxWidth lineHeight ws word (h + lineHeight)

/-- The paragraph loop of `measureWrapped`. -/
def measureParas (m : Str → ℚ) (maxWidth : ℚ) (lineHeight : ℚ) :
    List Str → Bool → ℚ → ℚ
  | [], _, h => h
  | p :: ps, isFirst, h =>
    let h1 := if isFirst then h else h + lineHeight * (1/2)
    if isBlank p then
      measureParas m maxWidth lineHeight ps false (h1 + lineHeight)
    else
      let res := measureParaWords m maxWidth lineHeight (splitOnElem ' ' p) [] h1
      let h2 := if res.2 ≠ [] then res.1 + lineHeight else res.1
      measureParas m maxWidth lineHeight ps false h2

/-- `measureWrapped(text, maxWidth, fontSize, fontFamily).totalHeight`. -/
def measureWrapped (m : Str → ℚ) (maxWidth : ℚ) (fontSize : ℚ) (text : Str) : ℚ :=
  measureParas m maxWidth (fontSize * (8/5)) (splitOnElem '\n' text) true 0

/-- The line loop of `drawText`: returns the list of `fillText` calls
(line, y-coordinate) and the final cursor `currentY`.  A line equal to
`"__PARA_BREAK__"` is not drawn and advances the cursor half a line height. -/
def drawTextRun (lineHeight : ℚ) : List Str → ℚ → List (Str × ℚ) × ℚ
  | [], y => ([], y)
  | l :: ls, y =>
    if l = paraBreakMarker then
      drawTextRun lineHeight ls (y + lineHeight * (1/2))
    else
      let res := drawTextRun lineHeight ls (y + lineHeight)
      ((l, y) :: res.1, res.2)

/-- The shrink loop of the auto-fit search: decrement while the sample line
overflows and the size is above 10.  Structural recursion on the size. -/
def autoFitShrink (sampleW : ℕ → ℚ) (target : ℚ) : ℕ → ℕ
  | 0 => 0
  | f + 1 =>
    if f + 1 > 10 ∧ sampleW (f + 1) > target then autoFitShrink sampleW target f
    else f + 1

/-- The grow loop of the auto-fit search, with explicit fuel (the source loop
performs at most `cap + 1 - f` iterations since every iteration increments the
size and exits once it exceeds `cap`). -/
def autoFitGrow (sampleW : ℕ → ℚ) (target : ℚ) (cap : ℕ) : ℕ → ℕ → ℕ
  | 0, f => f
  | fuel + 1, f =>
    if sampleW f < target * (9/10) then
      if sampleW (f + 1) > target then f
      else if f + 1 > cap then f + 1
      else autoFitGrow sampleW target cap fuel (f + 1)
    else f

/-- The whole auto-fit search of `generateImage`. -/
def autoFitSize (sampleW : ℕ → ℚ) (target : ℚ) (fontSize : ℕ) : ℕ :=
  let f1 := autoFitShrink sampleW target fontSize
  autoFitGrow sampleW target (fontSize * 3) (fontSize * 3 + 2) f1

/-- The configuration record (layout-relevant fields of `ImageOptions`). -/
structure ImageOptions where
  width : ℚ
  height : ℚ
  scale : ℚ
  fontSize : ℕ
  padding : ℚ
  autoFit : Bool
deriving DecidableEq

/-- Layout-relevant defaults of `defaultImageOptions`. -/
def defaultImageOptions : ImageOptions :=
  { width := 1080, height := 1080, scale := 3, fontSize := 16, padding := 40, autoFit := true }

/-- All layout quantities computed by one `generateImage` call. -/
structure RenderLayout where
  workingFontSize : ℕ
  lineHeight : ℚ
  wrapped : WrapResult
  textHeight : ℚ
  dynamicHeight : ℚ
  canvasWidth : ℚ
  canvasHeight : ℚ
  totalTextHeight : ℚ
  startY : ℚ
deriving DecidableEq

/-- The `sampleLine` reduce of `generateImage`: longest raw line by character
count. -/
def sampleLineOf (text : Str) : Str :=
  (splitOnElem '\n' text).foldl (fun a b => if b.length > a.length then b else a) []

/-- The layout portion of `generateImage(text, options)`.
`measureAt f s` models `ctx.measureText(s).width` with the font set at size
`f` (the normalized font family is fixed throughout one call). -/
def generateImage (measureAt : ℕ → Str → ℚ) (text : Str) (opts : ImageOptions) : RenderLayout :=
  let targetWidth := opts.width - 96 - opts.padding * 2
  let workingFontSize :=
    if opts.autoFit then
      autoFitSize (fun f => measureAt f (sampleLineOf text)) targetWidth opts.fontSize
    else opts.fontSize
  let lineHeight := (workingFontSize : ℚ) * (8/5)
  let cardY : ℚ := 48
  let cardWidth := opts.width - 96
  let maxTextWidth := cardWidth - opts.padding * 2
  let wrapped := wrapText (measureAt workingFontSize) maxTextWidth text
  let paragraphSeparatorExtra := max 0 ((wrapped.paragraphCount : ℚ) - 1) * lineHeight * (1/2)
  let textHeight := (wrapped.lines.length : ℚ) * lineHeight + paragraphSeparatorExtra
  let dynamicHeight := max opts.height (textHeight + opts.padding * 2 + 160)
  let cardHeight := dynamicHeight - 96
  let totalTextHeight :=
    measureWrapped (measureAt workingFontSize) (cardWidth - opts.padding * 2)
      (workingFontSize : ℚ) text
  let startY := max (cardY + 80) (cardY + (cardHeight - totalTextHeight) / 2)
  { workingFontSize := workingFontSize
    lineHeight := lineHeight
    wrapped := wrapped
    textHeight := textHeight
    dynamicHeight := dynamicHeight
    canvasWidth := opts.width * opts.scale
    canvasHeight := dynamicHeight * opts.scale
    totalTextHeight := totalTextHeight
    startY := startY }

/-- A concrete monospace-like measurement collaborator: every character
advances 0.6 em (the typical monospace advance width), i.e.
`width = fontSize * 0.6 * length`.  Used to instantiate theorems. -/
def monoMeasure (fontSize : ℕ) (s : Str) : ℚ := (fontSize : ℚ) * (3/5) * (s.length : ℚ)

/-! ### Font-family normalization (`normalizeFontFamily`) -/

/-- Bool substring containment, modelling `RegExp.prototype.test` with a
literal alternation pattern (one disjunct per call site). -/
def containsStr (pat : Str) : Str → Bool
  | [] => pat.isPrefixOf []
  | s@(_ :: cs) => pat.isPrefixOf s || containsStr pat cs

/-- Global replacement of a literal pattern, modelling
`String.prototype.replace(/pat/g, rep)`: scan left to right, on a match emit
`rep` and continue after the match (the replacement is not rescanned).  One
unit of fuel is consumed per scan step; each step consumes at least one input
character, so `fuel = s.length` suffices. -/
def replaceAllF (pat rep : Str) : ℕ → Str → Str
  | 0, s => s
  | _, [] => []
  | fuel + 1, s@(c :: cs) =>
    if pat.isPrefixOf s ∧ pat ≠ [] then
      rep ++ replaceAllF pat rep fuel (s.drop pat.length)
    else
      c :: replaceAllF pat rep fuel cs

def replaceAll (pat rep s : Str) : Str := replaceAllF pat rep s.length s

/-- Attempt to match the regex `var\([^)]*\)\s*,?` at the head of `s`
(assuming the literal head `var(` has already been checked by the caller);
returns the remainder after the match, or `none` when there is no closing
parenthesis. -/
def consumeVar (s : Str) : Option Str :=
  let t := (s.drop 4).dropWhile (fun c => c ≠ ')')
  match t with
  | ')' :: t2 =>
    let t3 := t2.dropWhile isJsWs
    match t3 with
    | ',' :: t4 => some t4
    | _ => some t3
  | _ => none

/-- Global replacement of `/var\([^)]*\)\s*,?/g` with the empty string. -/
def stripVarTokensF : ℕ → Str → Str
  | 0, s => s
  | _, [] => []
  | fuel + 1, s@(c :: cs) =>
    if "var(".toList.isPrefixOf s then
      match consumeVar s with
      | some rest => stripVarTokensF fuel rest
      | none => c :: stripVarTokensF fuel cs
    else
      c :: stripVarTokensF fuel cs

def stripVarTokens (s : Str) : Str := stripVarTokensF s.length s

/-- Attempt to match the regex `\s*,\s*,+` at the head of `s`; returns the
remainder after the (greedy) match. -/
def matchDupComma (s : Str) : Option Str :=
  match s.dropWhile isJsWs with
  | ',' :: t2 =>
    match t2.dropWhile isJsWs with
    | ',' :: t4 => some (t4.dropWhile (fun c => c = ','))
    | _ => none
  | _ => none

/-- Global replacement of `/\s*,\s*,+/g` with `", "`. -/
def collapseCommasF : ℕ → Str → Str
  | 0, s => s
  | _, [] => []
  | fuel + 1, c :: cs =>
    match matchDupComma (c :: cs) with
    | some rest => ',' :: ' ' :: collapseCommasF fuel rest
    | none => c :: collapseCommasF fuel cs

def collapseCommas (s : Str) : Str := collapseCommasF s.length s

/-- `String.prototype.trim()`. -/
def trimStr (s : Str) : Str :=
  ((s.dropWhile isJsWs).reverse.dropWhile isJsWs).reverse

def tokJetbrains : Str := "var(--font-jetbrains-mono)".toList
def tokFira : Str := "var(--font-fira-code)".toList
def tokSourcecode : Str := "var(--font-source-code-pro)".toList
def quotedJetbrains : Str := "\"JetBrains Mono\"".toList
def quotedFira : Str := "\"Fira Code\"".toList
def quotedSourcecode : Str := "\"Source Code Pro\"".toList

/-- `normalizeFontFamily(fontFamily)` from the source: substitute the three
known `next/font` tokens, strip remaining `var(...)` tokens, collapse
duplicate commas, trim, and append a `monospace` fallback when no generic
family is present. -/
def normalizeFontFamily (fontFamily : Str) : Str :=
  let n1 := replaceAll tokJetbrains quotedJetbrains fontFamily
  let n2 := replaceAll tokFira quotedFira n1
  let n3 := replaceAll tokSourcecode quotedSourcecode n2
  let n4 := stripVarTokens n3
  let n5 := collapseCommas n4
  let n6 := trimStr n5
  if containsStr "monospace".toList n6 || containsStr "serif".toList n6 ||
      containsStr "sans-serif".toList n6 then
    n6
  else
    n6 ++ ", monospace".toList

/-! ### History endpoint POST handler (validation and capped prepend) -/

/-- JSON values as delivered by `request.json()` (JSON numbers are always
finite, so `Number.isFinite` holds for every parsed number). -/
inductive JVal where
  | null : JVal
  | bool (b : Bool) : JVal
  | num (x : ℚ) : JVal
  | str (s : Str) : JVal
  | arr (elems : List JVal) : JVal
  | obj : JVal

/-- JavaScript truthiness of a parsed JSON value. -/
def JVal.truthy : JVal → Bool
  | .null => false
  | .bool b => b
  | .num x => x ≠ 0
  | .str s => s ≠ []
  | .arr _ => true
  | .obj => true

/-- The destructured request body `{ id, text, timestamp, title, tags }`
(`none` models `undefined`, i.e. an absent field; `body ?? {}` makes every
field absent when the body itself is `null`). -/
structure Payload where
  id : Option JVal
  text : Option JVal
  timestamp : Option JVal
  title : Option JVal
  tags : Option JVal

/-- `typeof v !== 'string'` (with `undefined` not a string). -/
def isStrVal : Option JVal → Bool
  | some (.str _) => true
  | _ => false

/-- The first validation condition of the POST handler (rejecting). -/
def postBasicInvalid (p : Payload) : Bool :=
  (match p.id with
   | some (.str s) => s.length = 0
   | _ => true) ||
  (match p.text with
   | some (.str s) => s.length = 0 || s.length > 10000
   | _ => true) ||
  (match p.timestamp with
   | some (.num x) => x ≤ 0
   | _ => true)

/-- `title && typeof title !== 'string'` (rejecting). -/
def postTitleInvalid (p : Payload) : Bool :=
  (match p.title with
   | some t => t.truthy
   | none => false) && !isStrVal p.title

/-- `tags && (!Array.isArray(tags) || tags.some(t => typeof t !== 'string' || t.length > 40))`
(rejecting). -/
def postTagsInvalid (p : Payload) : Bool :=
  (match p.tags with
   | some t => t.truthy
   | none => false) &&
  (match p.tags with
   | some (.arr es) =>
     es.any (fun e =>
       match e with
       | .str s => s.length > 40
       | _ => true)
   | _ => true)

/-- HTTP status produced by the POST handler for a parsed body. -/
def postStatus (p : Payload) : ℕ :=
  if postBasicInvalid p then 400
  else if postTitleInvalid p then 400
  else if postTagsInvalid p then 400
  else 200

/-- The snap object stored on the accepting path:
`{ id, text, timestamp, title: title || '', tags: Array.isArray(tags) ? tags : [] }`. -/
structure StoredSnap where
  id : JVal
  text : JVal
  timestamp : JVal
  title : JVal
  tags : List JVal

def mkStoredSnap (p : Payload) : StoredSnap :=
  { id := p.id.getD .null
    text := p.text.getD .null
    timestamp := p.timestamp.getD .null
    title :=
      match p.title with
      | some t => if t.truthy then t else .str []
      | none => .str []
    tags :=
      match p.tags with
      | some (.arr es) => es
      | _ => [] }

/-- The file content after the POST:
`data.snaps = [newSnap, ...data.snaps].slice(0, 100)` on success, unchanged on
a validation error. -/
def postApply (store : List StoredSnap) (p : Payload) : List StoredSnap :=
  if postStatus p = 200 then (mkStoredSnap p :: store).take 100 else store

/-! ### Concrete instances used in counterexamples -/

/-- Options for the clipping counterexample: `autoFit` off, small card. -/
def clipOpts : ImageOptions :=
  { width := 200, height := 100, scale := 1, fontSize := 50, padding := 0, autoFit := false }

/-- A single unbroken 15-character word. -/
def clipText : Str := "aaaaaaaaaaaaaaa".toList

/-- Options with `autoFit` disabled at the default geometry. -/
def noFitOpts : ImageOptions :=
  { width := 1080, height := 1080, scale := 3, fontSize := 16, padding := 40, autoFit := false }

/-- A measurement collaborator assigning 10 pixels per character (fixed font). -/
def tenPerChar : Str → ℚ := fun s => 10 * (s.length : ℚ)

/-- A payload with valid id/text/timestamp and `title: 0`
(present, not a string, but falsy). -/
def titleZeroPayload : Payload :=
  { id := some (.str "a".toList)
    text := some (.str "hi".toList)
    timestamp := some (.num 1)
    title := some (.num 0)
    tags := none }

/-- A font stack in which the known token is nested inside another
`var(...)` occurrence. -/
def nestedVarInput : Str := "var(a var(--font-jetbrains-mono))".toList

/-- Claim C2 (code bug): at the failing input — a single 15-character word at
`width = 200`, `height = 100`, `padding = 0`, `fontSize = 50`, `autoFit`
off, under a 0.6-em-per-character monospace measure — the cursor of
`drawText` ends below `dynamicHeight`, i.e. the drawn text is clipped:
`dynamicHeight < final drawn cursor + padding`, contradicting the claimed
height sufficiency.  (The height model over-counts break markers but the
vertical centering uses `measureWrapped`, which ignores long-word splitting,
so `startY` is placed too low.) -/
theorem generateImage_clips_long_word :
    (generateImage monoMeasure clipText clipOpts).dynamicHeight <
      (drawTextRun (generateImage monoMeasure clipText clipOpts).lineHeight
        (generateImage monoMeasure clipText clipOpts).wrapped.lines
        (generateImage monoMeasure clipText clipOpts).startY).2 + clipOpts.padding := by
  with_unfolding_all decide

/-- Claim C3 counterexample: for empty text (longest line is empty, measured
width 0) with the default options (`fontSize = 16`, `autoFit` on), the grow
loop only stops after exceeding the cap, yielding `workingFontSize = 49`,
outside the claimed interval `[10, 3 × 16] = [10, 48]`. -/
theorem autoFit_exceeds_claimed_bounds :
    ¬(10 ≤ (generateImage monoMeasure [] defaultImageOptions).workingFontSize ∧
      (generateImage monoMeasure [] defaultImageOptions).workingFontSize ≤
        3 * defaultImageOptions.fontSize) := by
  with_unfolding_all decide

/-- Claim C4 counterexample: for the two-paragraph text `"a\nb"` (no auto-fit,
default geometry, monospace measure) the code computes
`textHeight = 3 × lineHeight + 0.5 × lineHeight` — the `"__PARA_BREAK__"`
entry is counted as a full line — which differs from the claimed formula
`(entries excluding break markers) × lineHeight + (paragraphCount − 1) × lineHeight × 0.5`. -/
theorem textHeight_counts_marker_entries :
    (generateImage monoMeasure "a\nb".toList noFitOpts).textHeight ≠
      ((((generateImage monoMeasure "a\nb".toList noFitOpts).wrapped.lines.filter
          (fun l => l ≠ paraBreakMarker)).length : ℚ) *
        (generateImage monoMeasure "a\nb".toList noFitOpts).lineHeight +
        (((generateImage monoMeasure "a\nb".toList noFitOpts).wrapped.paragraphCount : ℚ) - 1) *
          (generateImage monoMeasure "a\nb".toList noFitOpts).lineHeight * (1/2)) := by
  with_unfolding_all decide

/-- Claim C5 counterexample: when the user text is itself the single word
`"__PARA_BREAK__"` (which fits within `maxWidth` under the monospace
measure), the wrap result is one literal line equal to the sentinel, and
splitting the output at break markers yields 2 segments although
`paragraphCount = 1`: reconstruction by splitting fails. -/
theorem split_reconstruction_fails_on_sentinel :
    (splitOnElem paraBreakMarker
        (wrapText (monoMeasure 16) 904 paraBreakMarker).lines).length ≠
      (wrapText (monoMeasure 16) 904 paraBreakMarker).paragraphCount := by
  with_unfolding_all decide

/-- Claim C6 counterexample: the payload
`{id: "a", text: "hi", timestamp: 1, title: 0}` has a present, non-string
`title`, yet the handler accepts it (status 200) and changes the store —
`title && typeof title !== 'string'` does not fire for falsy titles —
contradicting the claimed rejection with a client error. -/
theorem post_accepts_nonstring_falsy_title :
    titleZeroPayload.title = some (JVal.num 0) ∧
    isStrVal titleZeroPayload.title = false ∧
    postStatus titleZeroPayload = 200 ∧
    (postApply [] titleZeroPayload).length = 1 :=
  ⟨rfl, rfl, rfl, rfl⟩

/-- Claim C7 counterexample: the input `"var(a var(--font-jetbrains-mono))"`
contains the known JetBrains token, but the later `var(...)`-stripping pass
swallows the substituted `"JetBrains Mono"` (the outer `var(` consumes up to
the first closing parenthesis), so the output does not contain the quoted
family name. -/
theorem normalize_drops_nested_known_token :
    containsStr tokJetbrains nestedVarInput = true ∧
    containsStr quotedJetbrains (normalizeFontFamily nestedVarInput) = false := by
  with_unfolding_all decide

/-- Claim C10 counterexample: for the single word `"aaaaaa"` at
`maxWidth = 25` under a 10-pixels-per-character measure and `fontSize = 16`,
`wrapText` splits the word into three chunks (three full lines of vertical
advance in `drawText`), while `measureWrapped` — which has no long-word
splitting — reports only two line heights. -/
theorem measureWrapped_mismatch_on_split_word :
    measureWrapped tenPerChar 25 16 "aaaaaa".toList ≠
      (drawTextRun (16 * (8/5)) (wrapText tenPerChar 25 "aaaaaa".toList).lines 0).2 := by
  with_unfolding_all decide

/-- Wrapping a single word that fits yields exactly that word as the one
line. -/
theorem wrapText_single_word (m : Str → ℚ) (maxWidth : ℚ) (w : Str) (hw : w ≠ [])
    (hnb : isBlank w = false) (hn : splitOnElem '\n' w = [w])
    (hs : splitOnElem ' ' w = [w]) (h : m w ≤ maxWidth) :
    wrapText m maxWidth w = { lines := [w], paragraphCount := 1 } := by
  simp only [wrapText, hn, wrapParas, wrapParagraph, hnb, Bool.false_eq_true, if_false, hs,
    wrapWords, List.nil_append, if_pos rfl, pushLine]
  simp [h, hw]

theorem drawText_drops_sentinel_user_text (m : Str → ℚ) (maxWidth : ℚ)
    (h : m paraBreakMarker ≤ maxWidth) :
    wrapText m maxWidth paraBreakMarker =
      { lines := [paraBreakMarker], paragraphCount := 1 } ∧
    ∀ lineHeight y : ℚ, (drawTextRun lineHeight [paraBreakMarker] y).1 = [] ∧
      (drawTextRun lineHeight [paraBreakMarker] y).2 = y + lineHeight * (1/2) := by
  refine ⟨wrapText_single_word m maxWidth paraBreakMarker (by decide) (by decide)
    (by decide) (by decide) h, ?_⟩
  intro lineHeight y
  simp [drawTextRun]

/-- Witness for C9 at a concrete measure: the 14-character sentinel measures
134.4 px at font size 16, within `maxWidth = 904`. -/
theorem drawText_drops_sentinel_user_text_witness :
    monoMeasure 16 paraBreakMarker ≤ 904 ∧
    wrapText (monoMeasure 16) 904 paraBreakMarker =
      { lines := [paraBreakMarker], paragraphCount := 1 } :=
  ⟨by with_unfolding_all decide,
    (drawText_drops_sentinel_user_text (monoMeasure 16) 904
      (by with_unfolding_all decide)).1⟩

/-- Claim C8: `generateImage("", {width:1080, height:1080, autoFit:true})`
(remaining options at their defaults) succeeds for every measurement
collaborator: the wrap result is the single blank line, the canvas is
`1080×scale` wide and at least `1080×scale` tall, and the blank line is
rendered (one `fillText` call). -/
theorem generateImage_empty_text_ok (measureAt : ℕ → Str → ℚ) :
    (generateImage measureAt [] defaultImageOptions).wrapped =
      { lines := [[]], paragraphCount := 1 } ∧
    (generateImage measureAt [] defaultImageOptions).canvasWidth = 1080 * 3 ∧
    1080 * 3 ≤ (generateImage measureAt [] defaultImageOptions).canvasHeight ∧
    (drawTextRun (generateImage measureAt [] defaultImageOptions).lineHeight
        (generateImage measureAt [] defaultImageOptions).wrapped.lines
        (generateImage measureAt [] defaultImageOptions).startY).1 =
      [([], (generateImage measureAt [] defaultImageOptions).startY)] := by
  have hwrap : ∀ m : Str → ℚ, ∀ maxW : ℚ, wrapText m maxW [] =
      { lines := [[]], paragraphCount := 1 } := by
    intro m maxW
    simp [wrapText, splitOnElem, wrapParas, wrapParagraph, isBlank]
  have key : ∀ X : ℚ, (1080 : ℚ) * 3 ≤ (max 1080 X) * 3 := by
    intro X
    have := le_max_left (1080 : ℚ) X
    linarith
  refine ⟨?_, rfl, ?_, ?_⟩
  · simp only [generateImage]
    exact hwrap _ _
  · simp only [generateImage, hwrap, defaultImageOptions]
    exact key _
  · simp only [generateImage, hwrap]
    simp [drawTextRun, paraBreakMarker]

/-! ### Claim C1: width bound of wrapped lines -/

/-- Invariant satisfied by every entry that `wrapText` ever appends to
`allLines`. -/
def LineOK (m : Str → ℚ) (maxWidth : ℚ) (l : Str) : Prop :=
  l = [] ∨ l = paraBreakMarker ∨ m l ≤ maxWidth ∨ l.length = 1

/-- Invariant satisfied by `currentLine` (and by the `chunk` of
`splitLongWord`) at every point of `wrapText`. -/
def CurOK (m : Str → ℚ) (maxWidth : ℚ) (c : Str) : Prop :=
  c = [] ∨ m c ≤ maxWidth ∨ c.length = 1

theorem CurOK.toLineOK {m : Str → ℚ} {maxWidth : ℚ} {c : Str}
    (h : CurOK m maxWidth c) : LineOK m maxWidth c := by
  rcases h with h | h | h
  · exact Or.inl h
  · exact Or.inr (Or.inr (Or.inl h))
  · exact Or.inr (Or.inr (Or.inr h))

theorem pushLine_inv {m : Str → ℚ} {maxWidth : ℚ} {st : WrapSt}
    (hA : ∀ l ∈ st.allLines, LineOK m maxWidth l)
    (hC : CurOK m maxWidth st.currentLine) :
    ∀ l ∈ (pushLine st).allLines, LineOK m maxWidth l := by
  unfold pushLine
  split
  · intro l hl
    rcases List.mem_append.1 hl with h | h
    · exact hA l h
    · rcases List.mem_singleton.1 h with rfl
      exact hC.toLineOK
  · exact hA

theorem pushLine_currentLine (st : WrapSt) : (pushLine st).currentLine = [] := by
  unfold pushLine
  split <;> rfl

theorem splitChars_inv {m : Str → ℚ} {maxWidth : ℚ} :
    ∀ (chars : List Char) (acc : List Str) (chunk : Str),
      (∀ l ∈ acc, LineOK m maxWidth l) → CurOK m maxWidth chunk →
      (∀ l ∈ (splitChars m maxWidth chars (acc, chunk)).1, LineOK m maxWidth l) ∧
        CurOK m maxWidth (splitChars m maxWidth chars (acc, chunk)).2 := by
  intro chars
  induction chars with
  | nil => exact fun acc chunk hA hC => ⟨hA, hC⟩
  | cons ch rest ih =>
    intro acc chunk hA hC
    simp only [splitChars]
    split
    · split
      · rename_i hchunk
        refine ih (acc ++ [[ch]]) [] ?_ (Or.inl rfl)
        intro l hl
        rcases List.mem_append.1 hl with h | h
        · exact hA l h
        · rcases List.mem_singleton.1 h with rfl
          exact Or.inr (Or.inr (Or.inr rfl))
      · rename_i hchunk
        refine ih (acc ++ [chunk]) [ch] ?_ (Or.inr (Or.inr rfl))
        intro l hl
        rcases List.mem_append.1 hl with h | h
        · exact hA l h
        · rcases List.mem_singleton.1 h with rfl
          exact hC.toLineOK
    · rename_i hle
      refine ih acc (chunk ++ [ch]) hA (Or.inr (Or.inl ?_))
      exact le_of_not_lt hle

theorem splitLongWord_inv {m : Str → ℚ} {maxWidth : ℚ} {word : Str} {st : WrapSt}
    (hA : ∀ l ∈ st.allLines, LineOK m maxWidth l)
    (hC : CurOK m maxWidth st.currentLine) :
    (∀ l ∈ (splitLongWord m maxWidth word st).allLines, LineOK m maxWidth l) ∧
      CurOK m maxWidth (splitLongWord m maxWidth word st).currentLine := by
  obtain ⟨hA1, hC1⟩ := @splitChars_inv m maxWidth word st.allLines [] hA
    (Or.inl rfl)
  unfold splitLongWord
  simp only []
  split
  · split
    · split
      · exact ⟨hA1, Or.inr (Or.inl (by assumption))⟩
      · refine ⟨pushLine_inv hA1 hC, ?_⟩
        simp only [pushLine_currentLine] at *
        exact hC1
    · exact ⟨hA1, hC1⟩
  · exact ⟨hA1, hC⟩

theorem wrapWords_inv {m : Str → ℚ} {maxWidth : ℚ} :
    ∀ (ws : List Str) (st : WrapSt),
      (∀ l ∈ st.allLines, LineOK m maxWidth l) → CurOK m maxWidth st.currentLine →
      (∀ l ∈ (wrapWords m maxWidth ws st).allLines, LineOK m maxWidth l) ∧
        CurOK m maxWidth (wrapWords m maxWidth ws st).currentLine := by
  intro ws
  induction ws with
  | nil => exact fun st hA hC => ⟨hA, hC⟩
  | cons word rest ih =>
    intro st hA hC
    simp only [wrapWords]
    by_cases hfit :
        m (st.currentLine ++ (if st.currentLine = [] then [] else [' ']) ++ word) ≤ maxWidth
    · rw [if_pos hfit]
      exact ih _ hA (Or.inr (Or.inl hfit))
    · rw [if_neg hfit]
      have h1A : ∀ l ∈ (if st.currentLine ≠ [] then pushLine st else st).allLines,
          LineOK m maxWidth l := by
        split
        · exact pushLine_inv hA hC
        · exact hA
      have h1C : (if st.currentLine ≠ [] then pushLine st else st).currentLine = [] := by
        split
        · exact pushLine_currentLine st
        · rename_i h
          simpa using h
      by_cases hword : m word ≤ maxWidth
      · rw [if_pos hword]
        exact ih _ h1A (Or.inr (Or.inl hword))
      · rw [if_neg hword]
        exact ih _ (splitLongWord_inv h1A (Or.inl h1C)).1 (splitLongWord_inv h1A (Or.inl h1C)).2

theorem wrapParagraph_inv {m : Str → ℚ} {maxWidth : ℚ} {para : Str} {acc : List Str}
    (hA : ∀ l ∈ acc, LineOK m maxWidth l) :
    ∀ l ∈ wrapParagraph m maxWidth para acc, LineOK m maxWidth l := by
  unfold wrapParagraph
  split
  · intro l hl
    rcases List.mem_append.1 hl with h | h
    · exact hA l h
    · rcases List.mem_singleton.1 h with rfl
      exact Or.inl rfl
  · obtain ⟨hA1, hC1⟩ := wrapWords_inv (splitOnElem ' ' para)
      { allLines := acc, currentLine := [] } hA (Or.inl rfl)
    dsimp only
    split
    · exact pushLine_inv hA1 hC1
    · exact hA1

theorem wrapParas_inv {m : Str → ℚ} {maxWidth : ℚ} :
    ∀ (paras : List Str) (isFirst : Bool) (acc : List Str),
      (∀ l ∈ acc, LineOK m maxWidth l) →
      ∀ l ∈ wrapParas m maxWidth paras isFirst acc, LineOK m maxWidth l := by
  intro paras
  induction paras with
  | nil => exact fun isFirst acc hA => hA
  | cons p ps ih =>
    intro isFirst acc hA
    simp only [wrapParas]
    refine ih false _ (wrapParagraph_inv ?_)
    split
    · exact hA
    · intro l hl
      rcases List.mem_append.1 hl with h | h
      · exact hA l h
      · rcases List.mem_singleton.1 h with rfl
        exact Or.inr (Or.inl rfl)

/-- Claim C1: every literal line emitted by `wrapText` (excluding the
paragraph-break sentinel and blank-line entries) either has measured width at
most `maxWidth` or is a single character (which is then emitted on its own
line).  This holds for every measurement function, i.e. for every font size
and family. -/
theorem wrapText_width_bound (m : Str → ℚ) (maxWidth : ℚ) (text : Str) (l : Str)
    (hl : l ∈ (wrapText m maxWidth text).lines) (hmark : l ≠ paraBreakMarker)
    (hne : l ≠ []) : m l ≤ maxWidth ∨ l.length = 1 := by
  have h := @wrapParas_inv m maxWidth (splitOnElem '\n' text) true []
    (by intro l hl; cases hl) l hl
  rcases h with h | h | h | h
  · exact absurd h hne
  · exact absurd h hmark
  · exact Or.inl h
  · exact Or.inr h

/-- Witness for C1: wrapping the 6-character word at `maxWidth = 25` with 10
px per character produces the line `"aa"`, which is neither the sentinel nor
blank, and measures 20 ≤ 25. -/
theorem wrapText_width_bound_witness :
    "aa".toList ∈ (wrapText tenPerChar 25 "aaaaaa".toList).lines ∧
      (tenPerChar "aa".toList ≤ 25 ∨ "aa".toList.length = 1) :=
  ⟨by with_unfolding_all decide,
    wrapText_width_bound tenPerChar 25 "aaaaaa".toList "aa".toList
      (by with_unfolding_all decide) (by decide) (by decide)⟩

/-! ### Claim C3: bounds of the auto-fit search -/

theorem autoFitShrink_le (sampleW : ℕ → ℚ) (target : ℚ) :
    ∀ f, autoFitShrink sampleW target f ≤ f := by
  intro f
  induction f with
  | zero => simp [autoFitShrink]
  | succ n ih =>
    simp only [autoFitShrink]
    split
    · exact le_trans ih (Nat.le_succ n)
    · exact le_refl _

theorem autoFitShrink_ge (sampleW : ℕ → ℚ) (target : ℚ) :
    ∀ f, min 10 f ≤ autoFitShrink sampleW target f := by
  intro f
  induction f with
  | zero => simp [autoFitShrink]
  | succ n ih =>
    simp only [autoFitShrink]
    split
    · rename_i h
      have h10 : 10 ≤ n := by omega
      calc min 10 (n + 1) ≤ min 10 n := by omega
        _ ≤ autoFitShrink sampleW target n := ih
    · exact min_le_right _ _

theorem autoFitGrow_ge (sampleW : ℕ → ℚ) (target : ℚ) (cap : ℕ) :
    ∀ fuel f, f ≤ autoFitGrow sampleW target cap fuel f := by
  intro fuel
  induction fuel with
  | zero => exact fun f => le_refl f
  | succ n ih =>
    intro f
    simp only [autoFitGrow]
    split
    · split
      · exact le_refl f
      · split
        · exact Nat.le_succ f
        · exact le_trans (Nat.le_succ f) (ih (f + 1))
    · exact le_refl f

theorem autoFitGrow_le (sampleW : ℕ → ℚ) (target : ℚ) (cap : ℕ) :
    ∀ fuel f, f ≤ cap → autoFitGrow sampleW target cap fuel f ≤ cap + 1 := by
  intro fuel
  induction fuel with
  | zero => exact fun f hf => le_trans hf (Nat.le_succ cap)
  | succ n ih =>
    intro f hf
    simp only [autoFitGrow]
    split
    · split
      · exact le_trans hf (Nat.le_succ cap)
      · split
        · omega
        · rename_i hcap
          exact ih (f + 1) (by omega)
    · exact le_trans hf (Nat.le_succ cap)

/-- Claim C3, amended: with `autoFit` enabled, the `workingFontSize` chosen by
the shrink/grow search always lies within
`[min(requestedFontSize, 10), 3 × requestedFontSize + 1]`.  (The grow loop
checks its cap only after incrementing, so the upper bound `3×fontSize` can be
exceeded by one; when the requested size is below 10 the shrink floor is the
requested size itself.) -/
theorem workingFontSize_bounds (measureAt : ℕ → Str → ℚ) (text : Str)
    (opts : ImageOptions) (hauto : opts.autoFit = true) :
    min opts.fontSize 10 ≤ (generateImage measureAt text opts).workingFontSize ∧
      (generateImage measureAt text opts).workingFontSize ≤ 3 * opts.fontSize + 1 := by
  simp only [generateImage, hauto, if_true, autoFitSize]
  constructor
  · calc min opts.fontSize 10
        = min 10 opts.fontSize := min_comm _ _
      _ ≤ autoFitShrink _ _ opts.fontSize := autoFitShrink_ge _ _ _
      _ ≤ autoFitGrow _ _ (opts.fontSize * 3) (opts.fontSize * 3 + 2) _ :=
          autoFitGrow_ge _ _ _ _ _
  · have h1 : autoFitShrink (fun f => measureAt f (sampleLineOf text))
        (opts.width - 96 - opts.padding * 2) opts.fontSize ≤ opts.fontSize * 3 :=
      le_trans (autoFitShrink_le _ _ _) (by omega)
    have h2 := autoFitGrow_le (fun f => measureAt f (sampleLineOf text))
      (opts.width - 96 - opts.padding * 2) (opts.fontSize * 3) (opts.fontSize * 3 + 2) _ h1
    omega

/-- Witness for the amended C3 at the counterexample input itself: empty text,
default options; the resulting size 49 meets the amended bounds `[10, 49]`. -/
theorem workingFontSize_bounds_witness :
    defaultImageOptions.autoFit = true ∧
    (min defaultImageOptions.fontSize 10 ≤
        (generateImage monoMeasure [] defaultImageOptions).workingFontSize ∧
      (generateImage monoMeasure [] defaultImageOptions).workingFontSize ≤
        3 * defaultImageOptions.fontSize + 1) :=
  ⟨rfl, workingFontSize_bounds monoMeasure [] defaultImageOptions rfl⟩

/-! ### Decomposition of `wrapText` into per-paragraph blocks -/

/-- The lines produced by one paragraph in isolation. -/
def parBlock (m : Str → ℚ) (maxWidth : ℚ) (para : Str) : List Str :=
  wrapParagraph m maxWidth para []

/-- Joining blocks with one `"__PARA_BREAK__"` entry between consecutive
blocks. -/
def joinBlocks : List (List Str) → List Str
  | [] => []
  | b :: bs => b ++ tailJoin bs
where
  /-- The remaining blocks, each preceded by a break marker. -/
  tailJoin : List (List Str) → List Str
    | [] => []
    | b :: bs => (paraBreakMarker :: b) ++ tailJoin bs

theorem pushLine_of_ne {st : WrapSt} (hc : st.currentLine ≠ []) :
    pushLine st = { allLines := st.allLines ++ [st.currentLine], currentLine := [] } := by
  unfold pushLine
  rw [if_pos]
  exact Or.inl (List.length_pos.2 hc)

theorem splitChars_append (m : Str → ℚ) (maxWidth : ℚ) :
    ∀ (chars : List Char) (acc : List Str) (chunk : Str),
      splitChars m maxWidth chars (acc, chunk) =
        (acc ++ (splitChars m maxWidth chars ([], chunk)).1,
          (splitChars m maxWidth chars ([], chunk)).2) := by
  intro chars
  induction chars with
  | nil => intro acc chunk; simp [splitChars]
  | cons ch rest ih =>
    intro acc chunk
    simp only [splitChars]
    split
    · split
      · rw [ih (acc ++ [[ch]]) [], List.nil_append, ih [[ch]] []]
        simp
      · rw [ih (acc ++ [chunk]) [ch], List.nil_append, ih [chunk] [ch]]
        simp
    · exact ih acc (chunk ++ [ch])

theorem splitLongWord_append (m : Str → ℚ) (maxWidth : ℚ) (word : Str)
    (acc : List Str) (cur : Str) :
    splitLongWord m maxWidth word { allLines := acc, currentLine := cur } =
      { allLines := acc ++
          (splitLongWord m maxWidth word { allLines := [], currentLine := cur }).allLines,
        currentLine :=
          (splitLongWord m maxWidth word { allLines := [], currentLine := cur }).currentLine } := by
  unfold splitLongWord
  rw [splitChars_append m maxWidth word acc []]
  simp only []
  split
  · split
    · split
      · simp
      · rw [pushLine_of_ne (by simpa using ‹cur ≠ []›)]
        rw [pushLine_of_ne (by simpa using ‹cur ≠ []›)]
        simp
    · simp
  · simp

/-- `splitLongWord` only appends to `allLines`; general-state form. -/
theorem splitLongWord_split (m : Str → ℚ) (maxWidth : ℚ) (word : Str) (st : WrapSt) :
    splitLongWord m maxWidth word st =
      { allLines := st.allLines ++
          (splitLongWord m maxWidth word
            { allLines := [], currentLine := st.currentLine }).allLines,
        currentLine :=
          (splitLongWord m maxWidth word
            { allLines := [], currentLine := st.currentLine }).currentLine } :=
  splitLongWord_append m maxWidth word st.allLines st.currentLine

theorem wrapWords_append (m : Str → ℚ) (maxWidth : ℚ) :
    ∀ (ws : List Str) (st : WrapSt),
      wrapWords m maxWidth ws st =
        { allLines := st.allLines ++
            (wrapWords m maxWidth ws { allLines := [], currentLine := st.currentLine }).allLines,
          currentLine :=
            (wrapWords m maxWidth ws
              { allLines := [], currentLine := st.currentLine }).currentLine } := by
  intro ws
  induction ws with
  | nil => intro st; simp [wrapWords]
  | cons word rest ih =>
    intro st
    obtain ⟨A, cur⟩ := st
    simp only [wrapWords]
    by_cases hcur : cur = []
    · subst hcur
      simp only [if_pos rfl, if_true, List.nil_append, ne_eq, not_true_eq_false, if_false]
      by_cases hfit : m word ≤ maxWidth
      · simp only [if_pos hfit]
        exact ih { allLines := A, currentLine := word }
      · simp only [if_neg hfit]
        set B := splitLongWord m maxWidth word { allLines := [], currentLine := [] } with hB
        rw [splitLongWord_append m maxWidth word A []]
        rw [← hB, ih { allLines := A ++ B.allLines, currentLine := B.currentLine }, ih B]
        simp
    · simp only [if_neg hcur, ne_eq, not_false_eq_true, if_pos hcur, if_true,
        @pushLine_of_ne { allLines := A, currentLine := cur } hcur,
        @pushLine_of_ne { allLines := ([] : List Str), currentLine := cur } hcur]
      simp only [List.nil_append]
      by_cases hfit : m (cur ++ [' '] ++ word) ≤ maxWidth
      · simp only [if_pos hfit]
        exact ih { allLines := A, currentLine := cur ++ [' '] ++ word }
      · simp only [if_neg hfit]
        by_cases hword : m word ≤ maxWidth
        · simp only [if_pos hword]
          rw [ih { allLines := A ++ [cur], currentLine := word },
            ih { allLines := [cur], currentLine := word }]
          simp
        · simp only [if_neg hword]
          set B := splitLongWord m maxWidth word { allLines := [], currentLine := [] } with hB
          rw [splitLongWord_append m maxWidth word (A ++ [cur]) [],
            splitLongWord_append m maxWidth word [cur] []]
          rw [← hB, ih { allLines := A ++ [cur] ++ B.allLines, currentLine := B.currentLine },
            ih { allLines := [cur] ++ B.allLines, currentLine := B.currentLine }]
          simp

theorem wrapParagraph_append (m : Str → ℚ) (maxWidth : ℚ) (para : Str) (acc : List Str) :
    wrapParagraph m maxWidth para acc = acc ++ parBlock m maxWidth para := by
  unfold parBlock wrapParagraph
  split
  · simp
  · rw [wrapWords_append m maxWidth (splitOnElem ' ' para)
      { allLines := acc, currentLine := [] }]
    rw [wrapWords_append m maxWidth (splitOnElem ' ' para)
      { allLines := [], currentLine := [] }]
    dsimp only
    set W := wrapWords m maxWidth (splitOnElem ' ' para)
      { allLines := [], currentLine := [] } with hW
    by_cases hc : W.currentLine = []
    · simp [hc]
    · simp only [List.nil_append, ne_eq, hc, not_false_eq_true, if_pos,
        @pushLine_of_ne ⟨[] ++ W.allLines, W.currentLine⟩ hc,
        @pushLine_of_ne ⟨W.allLines, W.currentLine⟩ hc]
      rw [@pushLine_of_ne ⟨acc ++ W.allLines, W.currentLine⟩ hc]
      simp

theorem wrapParas_false (m : Str → ℚ) (maxWidth : ℚ) :
    ∀ (ps : List Str) (acc : List Str),
      wrapParas m maxWidth ps false acc =
        acc ++ joinBlocks.tailJoin (ps.map (parBlock m maxWidth)) := by
  intro ps
  induction ps with
  | nil => intro acc; simp [wrapParas, joinBlocks.tailJoin]
  | cons p rest ih =>
    intro acc
    simp only [wrapParas, Bool.false_eq_true, if_false, List.map_cons, joinBlocks.tailJoin]
    rw [wrapParagraph_append, ih]
    simp

theorem splitOnElem_ne_nil {α : Type} [DecidableEq α] (sep : α) :
    ∀ l : List α, splitOnElem sep l ≠ [] := by
  intro l
  induction l with
  | nil => simp [splitOnElem]
  | cons x xs ih =>
    simp only [splitOnElem]
    rcases h : splitOnElem sep xs with _ | ⟨r, rs⟩
    · exact absurd h ih
    · simp only [h]
      split <;> simp

/-- Decomposition of the wrap result: the emitted entries are exactly the
per-paragraph blocks joined by one break marker between consecutive blocks. -/
theorem wrapText_lines_eq (m : Str → ℚ) (maxWidth : ℚ) (text : Str) :
    (wrapText m maxWidth text).lines =
      joinBlocks ((splitOnElem '\n' text).map (parBlock m maxWidth)) := by
  unfold wrapText
  rcases h : splitOnElem '\n' text with _ | ⟨p, ps⟩
  · exact absurd h (splitOnElem_ne_nil '\n' text)
  · simp only [wrapParas, if_pos rfl, if_true, List.map_cons, joinBlocks]
    rw [wrapParagraph_append, wrapParas_false]
    simp

theorem tailJoin_length (bs : List (List Str)) :
    (joinBlocks.tailJoin bs).length = (bs.map List.length).sum + bs.length := by
  induction bs with
  | nil => simp [joinBlocks.tailJoin]
  | cons b rest ih =>
    simp only [joinBlocks.tailJoin, List.length_append, List.length_cons, List.map_cons,
      List.sum_cons, ih]
    omega

theorem joinBlocks_length (blocks : List (List Str)) :
    (joinBlocks blocks).length = (blocks.map List.length).sum + (blocks.length - 1) := by
  cases blocks with
  | nil => simp [joinBlocks]
  | cons b rest =>
    simp only [joinBlocks, List.length_append, tailJoin_length, List.map_cons, List.sum_cons,
      List.length_cons]
    omega

theorem wrapText_paragraphCount (m : Str → ℚ) (maxWidth : ℚ) (text : Str) :
    (wrapText m maxWidth text).paragraphCount = (splitOnElem '\n' text).length := rfl

theorem wrapText_lines_length (m : Str → ℚ) (maxWidth : ℚ) (text : Str) :
    (wrapText m maxWidth text).lines.length =
      ((splitOnElem '\n' text).map (fun p => (parBlock m maxWidth p).length)).sum +
        ((splitOnElem '\n' text).length - 1) := by
  rw [wrapText_lines_eq, joinBlocks_length, List.map_map, List.length_map]
  rfl

/-- Claim C4, amended: the total text block height used for `dynamicHeight`
equals `(number of wrap-result entries, with paragraph-break markers also
counted as full lines) × lineHeight + (paragraphCount − 1) × lineHeight × 0.5`;
equivalently, with `B_p` the lines of paragraph `p` and `P` the paragraph
count, it is `(Σ_p |B_p| + (P − 1)) × lineHeight + (P − 1) × lineHeight × 0.5`
(the source counts `wrapped.lines.length`, which includes the `P − 1`
markers). -/
theorem textHeight_formula (measureAt : ℕ → Str → ℚ) (text : Str) (opts : ImageOptions) :
    (generateImage measureAt text opts).textHeight =
      ((((splitOnElem '\n' text).map (fun p => (parBlock
            (measureAt (generateImage measureAt text opts).workingFontSize)
            (opts.width - 96 - opts.padding * 2) p).length)).sum : ℚ) +
          (((splitOnElem '\n' text).length : ℚ) - 1)) *
          (generateImage measureAt text opts).lineHeight +
        (((splitOnElem '\n' text).length : ℚ) - 1) *
          (generateImage measureAt text opts).lineHeight * (1/2) := by
  have hP : 1 ≤ (splitOnElem '\n' text).length :=
    List.length_pos.2 (splitOnElem_ne_nil '\n' text)
  have hmax : max (0 : ℚ) (((splitOnElem '\n' text).length : ℚ) - 1) =
      ((splitOnElem '\n' text).length : ℚ) - 1 := by
    rw [max_eq_right]
    have h1 : (1 : ℚ) ≤ ((splitOnElem '\n' text).length : ℚ) := by exact_mod_cast hP
    linarith
  simp only [generateImage, wrapText_paragraphCount, wrapText_lines_length, hmax]
  rw [Nat.cast_add, Nat.cast_sub hP]
  push_cast
  ring

/-! ### Claim C5: paragraph preservation -/

theorem splitChars_progress (m : Str → ℚ) (maxWidth : ℚ) :
    ∀ (chars : List Char) (acc : List Str) (chunk : Str),
      (acc ≠ [] ∨ chunk ≠ [] ∨ chars ≠ []) →
      ((splitChars m maxWidth chars (acc, chunk)).1 ≠ [] ∨
        (splitChars m maxWidth chars (acc, chunk)).2 ≠ []) := by
  intro chars
  induction chars with
  | nil =>
    intro acc chunk h
    rcases h with h | h | h
    · exact Or.inl h
    · exact Or.inr h
    · exact absurd rfl h
  | cons ch rest ih =>
    intro acc chunk _
    simp only [splitChars]
    split
    · split
      · exact ih _ _ (Or.inl (by simp))
      · exact ih _ _ (Or.inl (by simp))
    · exact ih _ _ (Or.inr (Or.inl (by simp)))

theorem splitLongWord_progress (m : Str → ℚ) (maxWidth : ℚ) (word : Str) (st : WrapSt)
    (h : st.allLines ≠ [] ∨ st.currentLine ≠ [] ∨ word ≠ []) :
    (splitLongWord m maxWidth word st).allLines ≠ [] ∨
      (splitLongWord m maxWidth word st).currentLine ≠ [] := by
  unfold splitLongWord
  simp only []
  split
  · rename_i hchunk
    split
    · split
      · exact Or.inr (by simp)
      · exact Or.inr (by simpa using hchunk)
    · exact Or.inr (by simpa using hchunk)
  · rename_i hchunk
    simp only [ne_eq, not_not] at hchunk
    rcases h with h | h | h
    · rw [splitChars_append]
      exact Or.inl (by simp [h])
    · exact Or.inr h
    · rcases splitChars_progress m maxWidth word st.allLines [] (Or.inr (Or.inr h)) with
        h1 | h1
      · exact Or.inl h1
      · exact absurd hchunk h1

theorem splitOnElem_mem {α : Type} [DecidableEq α] (sep : α) :
    ∀ (l : List α) (c : α), c ∈ l → c ≠ sep → ∃ w ∈ splitOnElem sep l, c ∈ w := by
  intro l
  induction l with
  | nil => intro c hc; cases hc
  | cons x xs ih =>
    intro c hc hcs
    simp only [splitOnElem]
    rcases h : splitOnElem sep xs with _ | ⟨r, rs⟩
    · exact absurd h (splitOnElem_ne_nil sep xs)
    · dsimp only
      rcases List.mem_cons.1 hc with rfl | hcxs
      · rw [if_neg hcs]
        exact ⟨c :: r, List.mem_cons_self _ _, List.mem_cons_self _ _⟩
      · rcases ih c hcxs hcs with ⟨w, hw, hcw⟩
        rw [h] at hw
        split
        · exact ⟨w, List.mem_cons_of_mem _ hw, hcw⟩
        · rcases List.mem_cons.1 hw with rfl | hwrs
          · exact ⟨x :: w, List.mem_cons_self _ _, List.mem_cons_of_mem _ hcw⟩
          · exact ⟨w, List.mem_cons_of_mem _ hwrs, hcw⟩

theorem wrapWords_progress (m : Str → ℚ) (maxWidth : ℚ) :
    ∀ (ws : List Str) (st : WrapSt),
      ((∃ wd ∈ ws, wd ≠ []) ∨ st.allLines ≠ [] ∨ st.currentLine ≠ []) →
      ((wrapWords m maxWidth ws st).allLines ≠ [] ∨
        (wrapWords m maxWidth ws st).currentLine ≠ []) := by
  intro ws
  induction ws with
  | nil =>
    intro st h
    rcases h with ⟨wd, hwd, _⟩ | h
    · cases hwd
    · exact h
  | cons wd rest ih =>
    intro st h
    have htail : (∃ w ∈ rest, w ≠ []) ∨ st.allLines ≠ [] ∨
        (st.currentLine ≠ [] ∨ wd ≠ []) := by
      rcases h with ⟨w, hw, hne⟩ | h | h
      · rcases List.mem_cons.1 hw with rfl | hw
        · exact Or.inr (Or.inr (Or.inr hne))
        · exact Or.inl ⟨w, hw, hne⟩
      · exact Or.inr (Or.inl h)
      · exact Or.inr (Or.inr (Or.inl h))
    simp only [wrapWords]
    by_cases hfit :
        m (st.currentLine ++ (if st.currentLine = [] then [] else [' ']) ++ wd) ≤ maxWidth
    · rw [if_pos hfit]
      refine ih _ ?_
      rcases htail with h1 | h1 | h1
      · exact Or.inl h1
      · exact Or.inr (Or.inl h1)
      · refine Or.inr (Or.inr ?_)
        dsimp only
        intro hnil
        rcases List.append_eq_nil.1 hnil with ⟨h2, h3⟩
        rcases List.append_eq_nil.1 h2 with ⟨h4, _⟩
        rcases h1 with h1 | h1
        · exact h1 h4
        · exact h1 h3
    · rw [if_neg hfit]
      have h1A : (if st.currentLine ≠ [] then pushLine st else st).allLines ≠ [] ∨
          ((∃ w ∈ rest, w ≠ []) ∨ wd ≠ []) := by
        split
        · rename_i hcur
          rw [pushLine_of_ne (by simpa using hcur)]
          exact Or.inl (by simp)
        · rename_i hcur
          simp only [ne_eq, not_not] at hcur
          rcases htail with h1 | h1 | h1
          · exact Or.inr (Or.inl h1)
          · exact Or.inl h1
          · rcases h1 with h1 | h1
            · exact absurd hcur h1
            · exact Or.inr (Or.inr h1)
      split
      · rename_i hwfit
        refine ih _ ?_
        rcases h1A with h1 | h1 | h1
        · exact Or.inr (Or.inl (by simpa using h1))
        · exact Or.inl h1
        · -- wd fits but the tentative overflowed; wd may be empty or not, but
          -- currentLine after this step is wd itself
          by_cases hwd : wd = []
          · subst hwd
            -- tentative = currentLine ++ sep ++ [] overflows while [] fits:
            -- then currentLine ≠ [] and the pushed line makes allLines nonempty
            rcases h1 with h1
            · exact absurd rfl h1
          · exact Or.inr (Or.inr (by simpa using hwd))
      · refine ih _ ?_
        by_cases hwd : wd = []
        · subst hwd
          rename_i hwfit
          -- m [] ≤ maxWidth is false here, and the tentative... splitLongWord [] is the identity
          have hid : ∀ st2 : WrapSt, splitLongWord m maxWidth [] st2 = st2 := by
            intro st2
            unfold splitLongWord
            simp [splitChars]
          rw [hid]
          rcases h1A with h1 | h1 | h1
          · exact Or.inr (Or.inl h1)
          · exact Or.inl h1
          · exact absurd rfl h1
        · rcases splitLongWord_progress m maxWidth wd
              (if st.currentLine ≠ [] then pushLine st else st)
              (Or.inr (Or.inr hwd)) with h1 | h1
          · exact Or.inr (Or.inl h1)
          · exact Or.inr (Or.inr h1)

theorem parBlock_ne_nil (m : Str → ℚ) (maxWidth : ℚ) (para : Str) :
    parBlock m maxWidth para ≠ [] := by
  unfold parBlock wrapParagraph
  split
  · simp
  · rename_i hblank
    have hex : ∃ wd ∈ splitOnElem ' ' para, wd ≠ [] := by
      have h1 : ∃ c ∈ para, isJsWs c = false := by
        unfold isBlank at hblank
        rcases List.all_eq_false.1 (by simpa using hblank) with ⟨c, hc, hcw⟩
        exact ⟨c, hc, by simpa using hcw⟩
      rcases h1 with ⟨c, hc, hcw⟩
      have hcs : c ≠ ' ' := by
        intro hceq
        subst hceq
        simp [isJsWs] at hcw
      rcases splitOnElem_mem ' ' para c hc hcs with ⟨w, hw, hcw2⟩
      exact ⟨w, hw, List.ne_nil_of_mem hcw2⟩
    rcases wrapWords_progress m maxWidth (splitOnElem ' ' para)
        ⟨[], []⟩ (Or.inl hex) with h1 | h1
    · dsimp only
      split
      · rw [pushLine_of_ne (by assumption)]
        simp
      · exact h1
    · dsimp only
      rw [if_pos (by simpa using h1), pushLine_of_ne h1]
      simp

theorem splitOnElem_not_mem {α : Type} [DecidableEq α] (x : α) :
    ∀ l : List α, x ∉ l → splitOnElem x l = [l] := by
  intro l
  induction l with
  | nil => intro _; rfl
  | cons c cs ih =>
    intro h
    have hcs : x ∉ cs := fun h2 => h (List.mem_cons_of_mem _ h2)
    have hc : c ≠ x := fun h2 => h (h2 ▸ List.mem_cons_self _ _)
    simp only [splitOnElem, ih hcs]
    rw [if_neg hc]

theorem splitOnElem_append_sep {α : Type} [DecidableEq α] (x : α) :
    ∀ (a r : List α), x ∉ a →
      splitOnElem x (a ++ x :: r) = a :: splitOnElem x r := by
  intro a
  induction a with
  | nil =>
    intro r _
    simp only [List.nil_append, splitOnElem]
    rcases h : splitOnElem x r with _ | ⟨r0, rs⟩
    · exact absurd h (splitOnElem_ne_nil x r)
    · simp
  | cons c cs ih =>
    intro r h
    have hcs : x ∉ cs := fun h2 => h (List.mem_cons_of_mem _ h2)
    have hc : c ≠ x := fun h2 => h (h2 ▸ List.mem_cons_self _ _)
    simp only [List.cons_append, splitOnElem, List.append_eq, ih r hcs]
    rw [if_neg hc]

theorem splitOnElem_joinBlocks :
    ∀ blocks : List (List Str), blocks ≠ [] →
      (∀ b ∈ blocks, paraBreakMarker ∉ b) →
      splitOnElem paraBreakMarker (joinBlocks blocks) = blocks := by
  intro blocks
  induction blocks with
  | nil => intro h; exact absurd rfl h
  | cons b rest ih =>
    intro _ hmem
    cases rest with
    | nil =>
      simp only [joinBlocks, joinBlocks.tailJoin, List.append_nil]
      exact splitOnElem_not_mem _ _ (hmem b (List.mem_cons_self _ _))
    | cons b2 rest2 =>
      have hjoin : joinBlocks (b :: b2 :: rest2) =
          b ++ paraBreakMarker :: joinBlocks (b2 :: rest2) := by
        simp [joinBlocks, joinBlocks.tailJoin]
      rw [hjoin, splitOnElem_append_sep paraBreakMarker b _
        (hmem b (List.mem_cons_self _ _))]
      rw [ih (by simp) (fun b3 h3 => hmem b3 (List.mem_cons_of_mem _ h3))]

/-- Claim C5, amended: every paragraph contributes at least one (nonempty
block of) entries, the wrap result is exactly the per-paragraph blocks joined
by one break marker between consecutive blocks (none before the first), and
`paragraphCount` equals the number of paragraphs of `text.split("\n")`.
Splitting the output at break markers reconstructs the paragraphs provided no
literal emitted line itself equals the sentinel string (the unamended claim
fails on such collisions). -/
theorem paragraph_preservation (m : Str → ℚ) (maxWidth : ℚ) (text : Str) :
    (wrapText m maxWidth text).lines =
      joinBlocks ((splitOnElem '\n' text).map (parBlock m maxWidth)) ∧
    (∀ p ∈ splitOnElem '\n' text, parBlock m maxWidth p ≠ []) ∧
    (wrapText m maxWidth text).paragraphCount = (splitOnElem '\n' text).length ∧
    ((∀ p ∈ splitOnElem '\n' text, paraBreakMarker ∉ parBlock m maxWidth p) →
      splitOnElem paraBreakMarker (wrapText m maxWidth text).lines =
        (splitOnElem '\n' text).map (parBlock m maxWidth) ∧
      (splitOnElem paraBreakMarker (wrapText m maxWidth text).lines).length =
        (wrapText m maxWidth text).paragraphCount) := by
  refine ⟨wrapText_lines_eq m maxWidth text,
    fun p _ => parBlock_ne_nil m maxWidth p,
    wrapText_paragraphCount m maxWidth text, fun hfree => ?_⟩
  have hsplit : splitOnElem paraBreakMarker (wrapText m maxWidth text).lines =
      (splitOnElem '\n' text).map (parBlock m maxWidth) := by
    rw [wrapText_lines_eq]
    refine splitOnElem_joinBlocks _ ?_ ?_
    · simp [splitOnElem_ne_nil '\n' text]
    · intro b hb
      rcases List.mem_map.1 hb with ⟨p, hp, rfl⟩
      exact hfree p hp
  refine ⟨hsplit, ?_⟩
  rw [hsplit, List.length_map, wrapText_paragraphCount]

/-- Witness for the amended C5 on the spec scenario text
`"Hello\n\nWorld"`: three paragraphs, no sentinel collision, and splitting the
output at markers recovers the three blocks. -/
theorem paragraph_preservation_witness :
    (∀ p ∈ splitOnElem '\n' "Hello\n\nWorld".toList,
      paraBreakMarker ∉ parBlock (monoMeasure 16) 904 p) ∧
    splitOnElem paraBreakMarker
        (wrapText (monoMeasure 16) 904 "Hello\n\nWorld".toList).lines =
      (splitOnElem '\n' "Hello\n\nWorld".toList).map (parBlock (monoMeasure 16) 904) :=
  ⟨by with_unfolding_all decide,
    ((paragraph_preservation (monoMeasure 16) 904 "Hello\n\nWorld".toList).2.2.2
      (by with_unfolding_all decide)).1⟩

/-! ### Claim C10: agreement of `measureWrapped` with the `drawText` advance -/

theorem drawTextRun_snd_add (lineHeight : ℚ) :
    ∀ (lines : List Str) (y : ℚ),
      (drawTextRun lineHeight lines y).2 = y + (drawTextRun lineHeight lines 0).2 := by
  intro lines
  induction lines with
  | nil => intro y; simp [drawTextRun]
  | cons l ls ih =>
    intro y
    simp only [drawTextRun]
    split
    · rw [ih (y + lineHeight * (1/2)), ih (0 + lineHeight * (1/2))]
      ring
    · simp only []
      rw [ih (y + lineHeight), ih (0 + lineHeight)]
      ring

theorem drawTextRun_append (lineHeight : ℚ) :
    ∀ (a c : List Str) (y : ℚ),
      (drawTextRun lineHeight (a ++ c) y).2 =
        (drawTextRun lineHeight c ((drawTextRun lineHeight a y).2)).2 := by
  intro a
  induction a with
  | nil => intro c y; simp [drawTextRun]
  | cons l ls ih =>
    intro c y
    simp only [List.cons_append, drawTextRun]
    split
    · exact ih c _
    · simp only []
      exact ih c _

theorem drawTextRun_no_marker (lineHeight : ℚ) :
    ∀ b : List Str, (∀ l ∈ b, l ≠ paraBreakMarker) →
      (drawTextRun lineHeight b 0).2 = (b.length : ℚ) * lineHeight := by
  intro b
  induction b with
  | nil => simp [drawTextRun]
  | cons l ls ih =>
    intro h
    simp only [drawTextRun, if_neg (h l (List.mem_cons_self _ _))]
    rw [drawTextRun_snd_add lineHeight ls (0 + lineHeight),
      ih (fun l2 h2 => h l2 (List.mem_cons_of_mem _ h2))]
    push_cast [List.length_cons, List.map_cons, List.sum_cons]
    ring

theorem drawTextRun_tailJoin (lineHeight : ℚ) :
    ∀ bs : List (List Str), (∀ b ∈ bs, ∀ l ∈ b, l ≠ paraBreakMarker) →
      (drawTextRun lineHeight (joinBlocks.tailJoin bs) 0).2 =
        ((bs.map List.length).sum : ℚ) * lineHeight +
          (bs.length : ℚ) * (lineHeight * (1/2)) := by
  intro bs
  induction bs with
  | nil => simp [joinBlocks.tailJoin, drawTextRun]
  | cons b rest ih =>
    intro h
    have hstep : joinBlocks.tailJoin (b :: rest) =
        (paraBreakMarker :: b) ++ joinBlocks.tailJoin rest := by
      simp [joinBlocks.tailJoin]
    rw [hstep, drawTextRun_append, drawTextRun_snd_add]
    simp only [drawTextRun, if_pos rfl, if_true]
    rw [drawTextRun_snd_add lineHeight b (0 + lineHeight * (1/2)),
      drawTextRun_no_marker lineHeight b (h b (List.mem_cons_self _ _)),
      ih (fun b2 h2 => h b2 (List.mem_cons_of_mem _ h2))]
    push_cast [List.length_cons, List.map_cons, List.sum_cons]
    ring

theorem drawTextRun_joinBlocks (lineHeight : ℚ) (blocks : List (List Str))
    (hne : blocks ≠ []) (h : ∀ b ∈ blocks, ∀ l ∈ b, l ≠ paraBreakMarker) :
    (drawTextRun lineHeight (joinBlocks blocks) 0).2 =
      ((blocks.map List.length).sum : ℚ) * lineHeight +
        ((blocks.length : ℚ) - 1) * (lineHeight * (1/2)) := by
  cases blocks with
  | nil => exact absurd rfl hne
  | cons b rest =>
    simp only [joinBlocks]
    rw [drawTextRun_append, drawTextRun_snd_add,
      drawTextRun_no_marker lineHeight b (h b (List.mem_cons_self _ _)),
      drawTextRun_tailJoin lineHeight rest (fun b2 h2 => h b2 (List.mem_cons_of_mem _ h2))]
    push_cast [List.length_cons, List.map_cons, List.sum_cons]
    ring

theorem measureParaWords_align (m : Str → ℚ) (maxWidth lineHeight : ℚ) :
    ∀ (ws : List Str) (cur : Str) (h : ℚ), (∀ w ∈ ws, m w ≤ maxWidth) →
      (measureParaWords m maxWidth lineHeight ws cur h).1 =
        h + lineHeight *
          ((wrapWords m maxWidth ws { allLines := [], currentLine := cur }).allLines.length : ℚ) ∧
      (measureParaWords m maxWidth lineHeight ws cur h).2 =
        (wrapWords m maxWidth ws { allLines := [], currentLine := cur }).currentLine := by
  intro ws
  induction ws with
  | nil =>
    intro cur h _
    simp [measureParaWords, wrapWords]
  | cons w rest ih =>
    intro cur h hw
    have hwfit : m w ≤ maxWidth := hw w (List.mem_cons_self _ _)
    have hwrest : ∀ w2 ∈ rest, m w2 ≤ maxWidth :=
      fun w2 h2 => hw w2 (List.mem_cons_of_mem _ h2)
    simp only [measureParaWords, wrapWords]
    by_cases hfit : m (cur ++ (if cur = [] then [] else [' ']) ++ w) ≤ maxWidth
    · rw [if_pos hfit, if_pos hfit]
      exact ih _ _ hwrest
    · have hcur : cur ≠ [] := by
        intro h0
        subst h0
        simp only [if_pos rfl, if_true, List.nil_append] at hfit
        exact hfit hwfit
      rw [if_neg hfit, if_neg hfit, if_pos hwfit, if_pos hcur,
        @pushLine_of_ne ⟨[], cur⟩ hcur]
      dsimp only
      simp only [List.nil_append]
      obtain ⟨ih1, ih2⟩ := ih w (h + lineHeight) hwrest
      rw [wrapWords_append m maxWidth rest ⟨[cur], w⟩]
      refine ⟨?_, ?_⟩
      · rw [ih1]
        dsimp only
        push_cast [List.length_append, List.length_cons, List.length_nil]
        ring
      · rw [ih2]

theorem parBlock_blank (m : Str → ℚ) (maxWidth : ℚ) (p : Str) (hp : isBlank p = true) :
    parBlock m maxWidth p = [[]] := by
  unfold parBlock wrapParagraph
  rw [if_pos hp]
  rfl

theorem parBlock_nonblank (m : Str → ℚ) (maxWidth : ℚ) (p : Str) (hp : isBlank p = false) :
    parBlock m maxWidth p =
      (if (wrapWords m maxWidth (splitOnElem ' ' p)
            { allLines := [], currentLine := [] }).currentLine ≠ [] then
        (wrapWords m maxWidth (splitOnElem ' ' p)
            { allLines := [], currentLine := [] }).allLines ++
          [(wrapWords m maxWidth (splitOnElem ' ' p)
            { allLines := [], currentLine := [] }).currentLine]
      else
        (wrapWords m maxWidth (splitOnElem ' ' p)
          { allLines := [], currentLine := [] }).allLines) := by
  unfold parBlock wrapParagraph
  rw [if_neg (by simp [hp])]
  dsimp only
  split
  · rw [pushLine_of_ne (by assumption)]
  · rfl

theorem blocks_sum_cast (m : Str → ℚ) (maxWidth : ℚ) (ps : List Str) :
    ((List.map List.length (List.map (parBlock m maxWidth) ps)).sum : ℚ) =
      (ps.map (fun p => ((parBlock m maxWidth p).length : ℚ))).sum := by
  induction ps with
  | nil => simp
  | cons p rest ih => push_cast [List.map_cons, List.sum_cons, ih]; ring

theorem measureParas_false_align (m : Str → ℚ) (maxWidth lineHeight : ℚ) :
    ∀ (ps : List Str) (h : ℚ),
      (∀ p ∈ ps, isBlank p = false → ∀ w ∈ splitOnElem ' ' p, m w ≤ maxWidth) →
      measureParas m maxWidth lineHeight ps false h =
        h + ((ps.map (fun p => ((parBlock m maxWidth p).length : ℚ))).sum) * lineHeight +
          (ps.length : ℚ) * (lineHeight * (1/2)) := by
  intro ps
  induction ps with
  | nil =>
    intro h _
    simp [measureParas]
  | cons p rest ih =>
    intro h hfit
    have hrest : ∀ p2 ∈ rest, isBlank p2 = false → ∀ w ∈ splitOnElem ' ' p2, m w ≤ maxWidth :=
      fun p2 h2 => hfit p2 (List.mem_cons_of_mem _ h2)
    simp only [measureParas, Bool.false_eq_true, if_false]
    by_cases hb : isBlank p = true
    · rw [if_pos hb, ih _ hrest]
      simp only [List.map_cons, List.sum_cons, List.length_cons,
        parBlock_blank m maxWidth p hb, List.length_singleton, List.length_nil]
      push_cast
      ring
    · rw [if_neg hb]
      have hb2 : isBlank p = false := by simpa using hb
      obtain ⟨ha1, ha2⟩ := measureParaWords_align m maxWidth lineHeight
        (splitOnElem ' ' p) [] (h + lineHeight * (1/2)) (hfit p (List.mem_cons_self _ _) hb2)
      rw [ha1, ha2, ih _ hrest]
      simp only [List.map_cons, List.sum_cons, List.length_cons]
      rw [parBlock_nonblank m maxWidth p hb2]
      by_cases hc : (wrapWords m maxWidth (splitOnElem ' ' p)
          { allLines := [], currentLine := [] }).currentLine = []
      · rw [if_neg (by simpa using hc), if_neg (by simpa using hc)]
        push_cast
        ring
      · rw [if_pos (by simpa using hc), if_pos (by simpa using hc)]
        push_cast [List.length_append, List.length_singleton]
        ring

/-- Claim C10, amended: for every text in which (i) every word of every
non-blank paragraph fits within `maxWidth` (so the long-word splitting that
`measureWrapped` does not replicate never fires) and (ii) no emitted literal
line equals the break sentinel, the `totalHeight` computed by
`measureWrapped` equals the total vertical advance `drawText` performs over
the lines produced by `wrapText` for the same arguments. -/
theorem measureWrapped_agrees_drawText (m : Str → ℚ) (maxWidth fontSize : ℚ) (text : Str)
    (hfit : ∀ p ∈ splitOnElem '\n' text, isBlank p = false →
      ∀ w ∈ splitOnElem ' ' p, m w ≤ maxWidth)
    (hfree : ∀ p ∈ splitOnElem '\n' text, ∀ l ∈ parBlock m maxWidth p,
      l ≠ paraBreakMarker) :
    measureWrapped m maxWidth fontSize text =
      (drawTextRun (fontSize * (8/5)) (wrapText m maxWidth text).lines 0).2 := by
  rw [wrapText_lines_eq]
  rw [drawTextRun_joinBlocks (fontSize * (8/5)) _
    (by simpa using splitOnElem_ne_nil '\n' text)
    (by
      intro b hb
      rcases List.mem_map.1 hb with ⟨p, hp, rfl⟩
      exact hfree p hp)]
  unfold measureWrapped
  rcases hps : splitOnElem '\n' text with _ | ⟨p0, ps⟩
  · exact absurd hps (splitOnElem_ne_nil '\n' text)
  · have hfit0 := hfit p0 (hps ▸ List.mem_cons_self _ _)
    have hfitrest : ∀ p2 ∈ ps, isBlank p2 = false →
        ∀ w ∈ splitOnElem ' ' p2, m w ≤ maxWidth := by
      intro p2 h2
      exact hfit p2 (hps ▸ List.mem_cons_of_mem _ h2)
    rw [blocks_sum_cast m maxWidth (p0 :: ps)]
    simp only [measureParas, if_pos rfl, if_true, List.length_map, List.map_cons,
      List.sum_cons, List.length_cons]
    by_cases hb : isBlank p0 = true
    · rw [if_pos hb, measureParas_false_align m maxWidth _ ps _ hfitrest]
      simp only [parBlock_blank m maxWidth p0 hb, List.length_singleton, List.length_nil]
      push_cast
      ring
    · rw [if_neg hb]
      have hb2 : isBlank p0 = false := by simpa using hb
      obtain ⟨ha1, ha2⟩ := measureParaWords_align m maxWidth (fontSize * (8/5))
        (splitOnElem ' ' p0) [] 0 (hfit0 hb2)
      rw [ha1, ha2, measureParas_false_align m maxWidth _ ps _ hfitrest]
      rw [parBlock_nonblank m maxWidth p0 hb2]
      by_cases hc : (wrapWords m maxWidth (splitOnElem ' ' p0)
          { allLines := [], currentLine := [] }).currentLine = []
      · rw [if_neg (by simpa using hc), if_neg (by simpa using hc)]
        push_cast
        ring
      · rw [if_pos (by simpa using hc), if_pos (by simpa using hc)]
        push_cast [List.length_append, List.length_singleton]
        ring

/-- Witness for the amended C10: on `"Hello\n\nWorld"` (all words fit, no
sentinel collision) the two heights agree. -/
theorem measureWrapped_agrees_drawText_witness :
    measureWrapped (monoMeasure 16) 904 16 "Hello\n\nWorld".toList =
      (drawTextRun (16 * (8/5))
        (wrapText (monoMeasure 16) 904 "Hello\n\nWorld".toList).lines 0).2 :=
  measureWrapped_agrees_drawText (monoMeasure 16) 904 16 "Hello\n\nWorld".toList
    (by with_unfolding_all decide) (by with_unfolding_all decide)

/-! ### Claim C6: history POST validation -/

/-- The acceptance condition as stated by the (amended) claim: id a nonempty
string, text a string of 1–10000 characters, timestamp a positive (finite)
number, title a string whenever present and truthy, tags an array of strings
of length ≤ 40 whenever present and truthy. -/
def payloadAccepted (p : Payload) : Prop :=
  (∃ s, p.id = some (JVal.str s) ∧ s ≠ []) ∧
  (∃ t, p.text = some (JVal.str t) ∧ 1 ≤ t.length ∧ t.length ≤ 10000) ∧
  (∃ x, p.timestamp = some (JVal.num x) ∧ 0 < x) ∧
  (∀ t, p.title = some t → t.truthy = true → ∃ s, t = JVal.str s) ∧
  (∀ t, p.tags = some t → t.truthy = true →
    ∃ es, t = JVal.arr es ∧ ∀ e ∈ es, ∃ s, e = JVal.str s ∧ s.length ≤ 40)

theorem postBasicInvalid_false_iff (p : Payload) :
    postBasicInvalid p = false ↔
      ((∃ s, p.id = some (JVal.str s) ∧ s ≠ []) ∧
        (∃ t, p.text = some (JVal.str t) ∧ 1 ≤ t.length ∧ t.length ≤ 10000) ∧
        (∃ x, p.timestamp = some (JVal.num x) ∧ 0 < x)) := by
  unfold postBasicInvalid
  simp only [Bool.or_eq_false_iff]
  have h1 : (match p.id with
      | some (JVal.str s) => decide (s.length = 0)
      | _ => true) = false ↔ ∃ s, p.id = some (JVal.str s) ∧ s ≠ [] := by
    rcases p.id with _ | v
    · simp
    · cases v <;> simp [List.length_eq_zero]
  have h2 : (match p.text with
      | some (JVal.str s) => decide (s.length = 0) || decide (s.length > 10000)
      | _ => true) = false ↔
      ∃ t, p.text = some (JVal.str t) ∧ 1 ≤ t.length ∧ t.length ≤ 10000 := by
    rcases p.text with _ | v
    · simp
    · cases v <;> simp [← List.length_eq_zero] <;> omega
  have h3 : (match p.timestamp with
      | some (JVal.num x) => decide (x ≤ 0)
      | _ => true) = false ↔ ∃ x, p.timestamp = some (JVal.num x) ∧ 0 < x := by
    rcases p.timestamp with _ | v
    · simp
    · cases v <;> simp
  rw [h1, h2, h3]
  tauto

theorem postTitleInvalid_false_iff (p : Payload) :
    postTitleInvalid p = false ↔
      (∀ t, p.title = some t → t.truthy = true → ∃ s, t = JVal.str s) := by
  unfold postTitleInvalid isStrVal
  rcases p.title with _ | v
  · simp
  · cases v <;> simp [JVal.truthy]

theorem postTagsInvalid_false_iff (p : Payload) :
    postTagsInvalid p = false ↔
      (∀ t, p.tags = some t → t.truthy = true →
        ∃ es, t = JVal.arr es ∧ ∀ e ∈ es, ∃ s, e = JVal.str s ∧ s.length ≤ 40) := by
  unfold postTagsInvalid
  rcases p.tags with _ | v
  · simp
  · cases v with
    | arr es =>
      simp only [JVal.truthy, Bool.true_and, Option.some.injEq]
      constructor
      · intro h t ht _
        subst ht
        refine ⟨es, rfl, ?_⟩
        intro e he
        have := List.any_eq_false.1 (by simpa using h) e he
        cases e <;> simp_all
      · intro h
        rcases h (JVal.arr es) rfl rfl with ⟨es2, hes2, hall⟩
        cases hes2
        refine List.any_eq_false.2 ?_
        intro e he
        rcases hall e he with ⟨s, rfl, hs⟩
        simp
        omega
    | null => simp [JVal.truthy]
    | bool b => cases b <;> simp [JVal.truthy]
    | num x => by_cases hx : x = 0 <;> simp [JVal.truthy, hx]
    | str s => rcases s with _ | ⟨c, cs⟩ <;> simp [JVal.truthy]
    | obj => simp [JVal.truthy]

theorem postStatus_eq_200_iff (p : Payload) :
    postStatus p = 200 ↔ payloadAccepted p := by
  have h1 := postBasicInvalid_false_iff p
  have h2 := postTitleInvalid_false_iff p
  have h3 := postTagsInvalid_false_iff p
  unfold postStatus payloadAccepted
  rcases hb1 : postBasicInvalid p <;> rcases hb2 : postTitleInvalid p <;>
    rcases hb3 : postTagsInvalid p <;> rw [hb1] at h1 <;> rw [hb2] at h2 <;>
      rw [hb3] at h3 <;> simp_all

/-- Claim C6, amended: a POST body is accepted (HTTP 200) exactly when id is a
nonempty string, text a string of 1–10000 characters, timestamp a positive
number, the title is a string whenever present and truthy, and the tags are
an array of strings of ≤ 40 characters whenever present and truthy (a falsy
non-string title or tags value is accepted and normalised, not rejected).  On
acceptance the new snap is prepended and the store capped at the 100 newest
entries; otherwise the handler returns 400 and the stored file is unchanged. -/
theorem post_validation_amended (store : List StoredSnap) (p : Payload) :
    (payloadAccepted p → postStatus p = 200 ∧
      postApply store p = (mkStoredSnap p :: store).take 100 ∧
      (postApply store p).length = min (store.length + 1) 100 ∧
      (postApply store p).head? = some (mkStoredSnap p)) ∧
    (¬payloadAccepted p → postStatus p = 400 ∧ postApply store p = store) := by
  constructor
  · intro hacc
    have h200 := (postStatus_eq_200_iff p).2 hacc
    refine ⟨h200, ?_, ?_, ?_⟩
    · simp [postApply, h200]
    · simp only [postApply, h200, if_pos rfl, if_true]
      rw [List.length_take]
      simp [Nat.min_comm]
    · simp only [postApply, h200, if_pos rfl, if_true]
      rcases store with _ | ⟨s2, rest⟩ <;> simp
  · intro hrej
    have h400 : postStatus p = 400 := by
      unfold postStatus
      by_cases h1 : postBasicInvalid p = true
      · simp [h1]
      · by_cases h2 : postTitleInvalid p = true
        · simp [h1, h2]
        · by_cases h3 : postTagsInvalid p = true
          · simp [h1, h2, h3]
          · exfalso
            exact hrej ((postStatus_eq_200_iff p).1 (by simp [postStatus, h1, h2, h3]))
    refine ⟨h400, ?_⟩
    simp [postApply, h400]

/-- Witness for the amended C6: the counterexample payload (falsy non-string
title) is accepted and prepended. -/
theorem post_validation_amended_witness :
    payloadAccepted titleZeroPayload ∧
    (postStatus titleZeroPayload = 200 ∧
      postApply [] titleZeroPayload = [mkStoredSnap titleZeroPayload] ∧
      (postApply [] titleZeroPayload).length = min 1 100 ∧
      (postApply [] titleZeroPayload).head? = some (mkStoredSnap titleZeroPayload)) := by
  have hacc : payloadAccepted titleZeroPayload := by
    refine ⟨⟨"a".toList, rfl, by decide⟩, ⟨"hi".toList, rfl, by decide, by decide⟩,
      ⟨1, rfl, by norm_num⟩, ?_, ?_⟩
    · intro t ht htr
      cases Option.some.injEq _ _ ▸ ht
      simp [JVal.truthy] at htr
    · intro t ht
      cases ht
  have := post_validation_amended [] titleZeroPayload
  exact ⟨hacc, (this.1 hacc).1, (this.1 hacc).2.1, (this.1 hacc).2.2.1, (this.1 hacc).2.2.2⟩

/-! ### Claim C7: font-family normalization on well-formed font stacks -/

theorem containsStr_eq_true_iff (pat : Str) :
    ∀ s : Str, containsStr pat s = true ↔ pat <:+: s := by
  intro s
  induction s with
  | nil =>
    simp [containsStr]
  | cons c cs ih =>
    simp only [containsStr, Bool.or_eq_true, List.isPrefixOf_iff_prefix, ih,
      List.infix_cons_iff]

theorem containsStr_false_iff (pat s : Str) :
    containsStr pat s = false ↔ ¬ pat <:+: s := by
  rw [← containsStr_eq_true_iff]
  cases containsStr pat s <;> simp

/-- Decomposition of an occurrence inside an append: it lies in the left
part, in the right part, or crosses the boundary. -/
theorem infix_append_decomp {α : Type} :
    ∀ {a : List α} {q b : List α}, q <:+: a ++ b →
      q <:+: a ∨ q <:+: b ∨
        ∃ q1 q2, q = q1 ++ q2 ∧ q1 ≠ [] ∧ q2 ≠ [] ∧ q1 <:+ a ∧ q2 <+: b := by
  intro a
  induction a with
  | nil =>
    intro q b h
    exact Or.inr (Or.inl (by simpa using h))
  | cons c a2 ih =>
    intro q b h
    rw [List.cons_append, List.infix_cons_iff] at h
    rcases h with h | h
    · rcases List.prefix_cons_iff.1 h with rfl | ⟨t, rfl, ht⟩
      · exact Or.inl (List.nil_infix)
      · by_cases hlen : t.length ≤ a2.length
        · have hta : t <+: a2 :=
            List.prefix_of_prefix_length_le ht (List.prefix_append a2 b) hlen
          exact Or.inl (List.IsPrefix.isInfix (by simpa using hta))
        · have hat : a2 <+: t :=
            List.prefix_of_prefix_length_le (List.prefix_append a2 b) ht (by omega)
          rcases hat with ⟨s, rfl⟩
          by_cases hs : s = []
          · subst hs
            exact Or.inl (List.IsPrefix.isInfix (by simpa using List.prefix_rfl))
          · refine Or.inr (Or.inr ⟨c :: a2, s, by simp, by simp, hs, List.suffix_rfl, ?_⟩)
            rcases ht with ⟨w, hw⟩
            rw [List.append_assoc] at hw
            exact ⟨w, List.append_cancel_left hw⟩
    · rcases ih h with h2 | h2 | ⟨q1, q2, rfl, h3, h4, h5, h6⟩
      · exact Or.inl (List.infix_cons h2)
      · exact Or.inr (Or.inl h2)
      · exact Or.inr (Or.inr ⟨q1, q2, rfl, h3, h4,
          h5.trans (List.suffix_cons c a2), h6⟩)

/-- A nonempty prefix of `y :: Y` contains `y`. -/
theorem mem_of_prefix_cons {α : Type} {p : List α} {y : α} {Y : List α}
    (hne : p ≠ []) (h : p <+: y :: Y) : y ∈ p := by
  rcases List.prefix_cons_iff.1 h with rfl | ⟨t, rfl, _⟩
  · exact absurd rfl hne
  · exact List.mem_cons_self _ _

/-- No occurrence in `a`, none in `y :: Y`, and `y ∉ p`: then no occurrence
in the concatenation either (a crossing occurrence would contain `y`). -/
theorem not_infix_append_head {p a : Str} {y : Char} {Y : Str}
    (hpa : ¬ p <:+: a) (hpb : ¬ p <:+: y :: Y) (hy : y ∉ p) :
    ¬ p <:+: a ++ y :: Y := by
  intro h
  rcases infix_append_decomp h with h1 | h1 | ⟨q1, q2, rfl, h3, h4, h5, h6⟩
  · exact hpa h1
  · exact hpb h1
  · exact hy (List.mem_append.2 (Or.inr (mem_of_prefix_cons h4 h6)))

/-- Join a list of strings with the separator `", "` (how a human writes a
CSS font stack). -/
def joinCommaSep : List Str → Str
  | [] => []
  | [e] => e
  | e :: e2 :: rest => e ++ ',' :: ' ' :: joinCommaSep (e2 :: rest)

theorem replaceAllF_nil (p r : Str) (fuel : ℕ) : replaceAllF p r fuel [] = [] := by
  cases fuel <;> rfl

theorem replaceAllF_head_match (p r : Str) (hp : p ≠ []) (fuel : ℕ) (X : Str) :
    replaceAllF p r (fuel + 1) (p ++ X) = r ++ replaceAllF p r fuel X := by
  cases p with
  | nil => exact absurd rfl hp
  | cons ph pt =>
    rw [List.cons_append, replaceAllF, if_pos, List.length_cons,
      List.drop_succ_cons, List.drop_left]
    constructor
    · rw [List.isPrefixOf_iff_prefix]
      exact ⟨X, by simp⟩
    · exact hp

/-- A nonempty suffix of `e` followed by a string headed by a character
absent from `p` never begins with `p`, provided `p` does not occur in `e`. -/
theorem copy_boundary_cons {p e : Str} {y : Char} {Y : Str}
    (hne : ¬ p <:+: e) (hy : y ∉ p) :
    ∀ suf, suf <:+ e → suf ≠ [] → ¬ p <+: suf ++ y :: Y := by
  intro suf hsuf _ hpre
  by_cases hlen : p.length ≤ suf.length
  · have hps : p <+: suf :=
      List.prefix_of_prefix_length_le hpre (List.prefix_append suf _) hlen
    exact hne (List.IsInfix.trans hps.isInfix hsuf.isInfix)
  · have hsp : suf <+: p :=
      List.prefix_of_prefix_length_le (List.prefix_append suf _) hpre (by omega)
    obtain ⟨p2, rfl⟩ := hsp
    have hp2 : p2 <+: y :: Y := by
      rcases hpre with ⟨w, hw⟩
      rw [List.append_assoc] at hw
      exact ⟨w, List.append_cancel_left hw⟩
    have hp2ne : p2 ≠ [] := by
      intro h
      subst h
      simp at hlen
    exact hy (List.mem_append.2 (Or.inr (mem_of_prefix_cons hp2ne hp2)))

theorem copy_boundary_nil {p e : Str} (hne : ¬ p <:+: e) :
    ∀ suf, suf <:+ e → suf ≠ [] → ¬ p <+: suf ++ ([] : Str) := by
  intro suf hsuf _ hpre
  rw [List.append_nil] at hpre
  exact hne (List.IsInfix.trans hpre.isInfix hsuf.isInfix)

/-- Scanning a block in which no match can start copies the block verbatim,
consuming one unit of fuel per character. -/
theorem replaceAllF_copy (p r : Str) :
    ∀ (e X : Str) (fuel : ℕ), e.length ≤ fuel →
      (∀ suf, suf <:+ e → suf ≠ [] → ¬ p <+: suf ++ X) →
      replaceAllF p r fuel (e ++ X) = e ++ replaceAllF p r (fuel - e.length) X := by
  intro e
  induction e with
  | nil =>
    intro X fuel _ _
    simp
  | cons c e2 ih =>
    intro X fuel hfuel hb
    obtain ⟨f, rfl⟩ : ∃ f, fuel = f + 1 := ⟨fuel - 1, by simp at hfuel; omega⟩
    rw [List.cons_append, replaceAllF, if_neg]
    · rw [ih X f (by simp at hfuel; omega)
        (fun suf hsuf hne2 => hb suf (hsuf.trans (List.suffix_cons c e2)) hne2),
        List.cons_append, List.length_cons, Nat.succ_sub_succ]
    · rintro ⟨h1, -⟩
      exact hb (c :: e2) List.suffix_rfl (by simp)
        (by rw [List.cons_append]; exact List.isPrefixOf_iff_prefix.1 h1)

theorem replaceAllF_sep (p r : Str) (hcomma : ',' ∉ p) (hspace : ' ' ∉ p)
    (f : ℕ) (J : Str) :
    replaceAllF p r (f + 1 + 1) (',' :: ' ' :: J) =
      ',' :: ' ' :: replaceAllF p r f J := by
  rw [replaceAllF, if_neg, replaceAllF, if_neg]
  · rintro ⟨h1, h2⟩
    exact hspace (mem_of_prefix_cons h2 (List.isPrefixOf_iff_prefix.1 h1))
  · rintro ⟨h1, h2⟩
    exact hcomma (mem_of_prefix_cons h2 (List.isPrefixOf_iff_prefix.1 h1))

theorem replaceAllF_whole (p r e : Str) (fuel : ℕ) (hfuel : e.length ≤ fuel)
    (hne : ¬ p <:+: e) : replaceAllF p r fuel e = e := by
  have h := replaceAllF_copy p r e [] fuel (by simpa) (copy_boundary_nil hne)
  rw [List.append_nil] at h
  rw [h, replaceAllF_nil, List.append_nil]

theorem replaceAllF_token (p r : Str) (hp : p ≠ []) (f : ℕ) :
    replaceAllF p r (f + 1) p = r := by
  have h := replaceAllF_head_match p r hp f []
  rw [List.append_nil] at h
  rw [h, replaceAllF_nil, List.append_nil]

/-- Replacing a comma-free, space-free literal token in a `", "`-joined
stack replaces exactly the entries equal to the token, provided the token
does not occur inside any other entry. -/
theorem RA_join (p r : Str) (hp : p ≠ []) (hcomma : ',' ∉ p) (hspace : ' ' ∉ p) :
    ∀ (entries : List Str) (fuel : ℕ), (joinCommaSep entries).length ≤ fuel →
      (∀ e ∈ entries, e = p ∨ ¬ p <:+: e) →
      replaceAllF p r fuel (joinCommaSep entries) =
        joinCommaSep (entries.map (fun e => if e = p then r else e)) := by
  intro entries
  induction entries with
  | nil =>
    intro fuel _ _
    simp [joinCommaSep, replaceAllF_nil]
  | cons e rest ih =>
    intro fuel hfuel hall
    cases rest with
    | nil =>
      simp only [joinCommaSep, List.map_cons, List.map_nil] at hfuel ⊢
      rcases hall e (List.mem_cons_self e _) with rfl | hne
      · have hplen : 1 ≤ e.length := by
          cases e with
          | nil => exact absurd rfl hp
          | cons a b => simp
        obtain ⟨f, rfl⟩ : ∃ f, fuel = f + 1 := ⟨fuel - 1, by omega⟩
        rw [if_pos rfl]
        exact replaceAllF_token e r hp f
      · have hnep : e ≠ p := fun h => hne (h ▸ List.infix_refl p)
        rw [if_neg hnep]
        exact replaceAllF_whole p r e fuel hfuel hne
    | cons e2 rest2 =>
      simp only [joinCommaSep, List.map_cons] at hfuel ⊢
      have hJlen : (e ++ ',' :: ' ' :: joinCommaSep (e2 :: rest2)).length
          = e.length + (joinCommaSep (e2 :: rest2)).length + 2 := by
        simp [List.length_append]
        omega
      rcases hall e (List.mem_cons_self e _) with rfl | hne
      · have hplen : 1 ≤ e.length := by
          cases e with
          | nil => exact absurd rfl hp
          | cons a b => simp
        obtain ⟨f2, rfl⟩ : ∃ f2, fuel = f2 + 1 + 1 + 1 :=
          ⟨fuel - 3, by rw [hJlen] at hfuel; omega⟩
        rw [replaceAllF_head_match e r hp _ _,
          replaceAllF_sep e r hcomma hspace, if_pos rfl,
          ih (f2) (by rw [hJlen] at hfuel; omega)
            (fun x hx => hall x (List.mem_cons_of_mem e hx)), List.map_cons]
      · have hnep : e ≠ p := fun h => hne (h ▸ List.infix_refl p)
        rw [replaceAllF_copy p r e (',' :: ' ' :: joinCommaSep (e2 :: rest2)) fuel
          (by rw [hJlen] at hfuel; omega) (copy_boundary_cons hne hcomma),
          if_neg hnep]
        obtain ⟨g, hg⟩ : ∃ g, fuel - e.length = g + 1 + 1 :=
          ⟨fuel - e.length - 2, by rw [hJlen] at hfuel; omega⟩
        rw [hg, replaceAllF_sep p r hcomma hspace,
          ih g (by rw [hJlen] at hfuel; omega)
            (fun x hx => hall x (List.mem_cons_of_mem e hx)), List.map_cons]

theorem mem_of_getLast_some {l : Str} {a : Char} (h : l.getLast? = some a) : a ∈ l := by
  obtain ⟨hne, rfl⟩ := List.mem_getLast?_eq_getLast (Option.mem_def.2 h)
  exact List.getLast_mem hne

theorem infix_joinCommaSep_of_mem :
    ∀ (entries : List Str) (e : Str), e ∈ entries → e <:+: joinCommaSep entries := by
  intro entries
  induction entries with
  | nil =>
    intro e he
    exact absurd he (List.not_mem_nil e)
  | cons x rest ih =>
    intro e he
    cases rest with
    | nil =>
      rcases List.mem_cons.1 he with rfl | h
      · exact List.infix_refl e
      · exact absurd h (List.not_mem_nil e)
    | cons e2 rest2 =>
      show e <:+: x ++ ',' :: ' ' :: joinCommaSep (e2 :: rest2)
      rcases List.mem_cons.1 he with rfl | h
      · exact (List.prefix_append e _).isInfix
      · exact (ih e h).trans
          ((((List.suffix_cons ' ' _).trans (List.suffix_cons ',' _)).trans
            (List.suffix_append x _)).isInfix)

theorem not_infix_joinCommaSep {p : Str} (hp : p ≠ []) (hcomma : ',' ∉ p) (hspace : ' ' ∉ p) :
    ∀ (entries : List Str), (∀ e ∈ entries, ¬ p <:+: e) →
      ¬ p <:+: joinCommaSep entries := by
  intro entries
  induction entries with
  | nil =>
    intro _ h
    exact hp (List.infix_nil.1 h)
  | cons x rest ih =>
    intro hall
    cases rest with
    | nil =>
      exact hall x (List.mem_cons_self x _)
    | cons e2 rest2 =>
      show ¬ p <:+: x ++ ',' :: ' ' :: joinCommaSep (e2 :: rest2)
      refine not_infix_append_head (hall x (List.mem_cons_self x _)) ?_ hcomma
      intro h
      rcases List.infix_cons_iff.1 h with h1 | h1
      · exact hcomma (mem_of_prefix_cons hp h1)
      rcases List.infix_cons_iff.1 h1 with h2 | h2
      · exact hspace (mem_of_prefix_cons hp h2)
      · exact ih (fun e he => hall e (List.mem_cons_of_mem x he)) h2

theorem joinCommaSep_cons_head (c : Char) (cs : Str) (rest : List Str) :
    ∃ t, joinCommaSep ((c :: cs) :: rest) = c :: t := by
  cases rest with
  | nil => exact ⟨cs, rfl⟩
  | cons e2 rest2 =>
    exact ⟨cs ++ ',' :: ' ' :: joinCommaSep (e2 :: rest2), rfl⟩

theorem joinCommaSep_getLast :
    ∀ (entries : List Str) (last : Str), entries.getLast? = some last →
      (∀ x ∈ entries, x ≠ []) →
      (joinCommaSep entries).getLast? = last.getLast? := by
  intro entries
  induction entries with
  | nil =>
    intro last h _
    simp at h
  | cons x rest ih =>
    intro last h hne
    cases rest with
    | nil =>
      simp only [List.getLast?_singleton, Option.some.injEq] at h
      subst h
      rfl
    | cons e2 rest2 =>
      rw [List.getLast?_cons_cons] at h
      have hJ : joinCommaSep (e2 :: rest2) ≠ [] := by
        obtain ⟨c, cs, rfl⟩ : ∃ c cs, e2 = c :: cs := by
          have := hne e2 (List.mem_cons_of_mem x (List.mem_cons_self e2 _))
          cases e2 with
          | nil => exact absurd rfl this
          | cons c cs => exact ⟨c, cs, rfl⟩
        obtain ⟨t, ht⟩ := joinCommaSep_cons_head c cs rest2
        rw [ht]
        simp
      show (x ++ ',' :: ' ' :: joinCommaSep (e2 :: rest2)).getLast? = last.getLast?
      rw [List.getLast?_append_of_ne_nil x (by simp), List.getLast?_cons_cons]
      cases hJc : joinCommaSep (e2 :: rest2) with
      | nil => exact absurd hJc hJ
      | cons j js =>
        rw [List.getLast?_cons_cons, ← hJc,
          ih last h (fun y hy => hne y (List.mem_cons_of_mem x hy))]

theorem dropWhile_head_false {p : Char → Bool} :
    ∀ {l : Str} {c : Char} {t : Str}, l.dropWhile p = c :: t → p c = false := by
  intro l
  induction l with
  | nil =>
    intro c t h
    simp at h
  | cons a l2 ih =>
    intro c t h
    rw [List.dropWhile_cons] at h
    by_cases ha : p a
    · rw [if_pos ha] at h
      exact ih h
    · rw [if_neg ha] at h
      cases h
      exact Bool.not_eq_true _ ▸ (by simpa using ha)

theorem dropWhile_id_of_head {p : Char → Bool} (s : Str)
    (h : ∀ c t, s = c :: t → p c = false) : s.dropWhile p = s := by
  cases s with
  | nil => rfl
  | cons c t =>
    rw [List.dropWhile_cons, if_neg]
    simp [h c t rfl]

theorem suffix_append_split {u a b : Str} (h : u <:+ a ++ b) :
    u <:+ b ∨ ∃ u1, u1 <:+ a ∧ u1 ≠ [] ∧ u = u1 ++ b := by
  induction a with
  | nil =>
    exact Or.inl (by simpa using h)
  | cons c a2 ih =>
    rw [List.cons_append] at h
    rcases List.suffix_cons_iff.1 h with h1 | h1
    · exact Or.inr ⟨c :: a2, List.suffix_rfl, by simp, by simpa using h1⟩
    · rcases ih h1 with h2 | ⟨u1, h3, h4, h5⟩
      · exact Or.inl h2
      · exact Or.inr ⟨u1, h3.trans (List.suffix_cons c a2), h4, h5⟩

/-- Well-formedness of one plain font-stack entry as a string: nonempty,
comma-free, and neither starting nor ending in whitespace. -/
def entryWF (x : Str) : Prop :=
  x ≠ [] ∧ ',' ∉ x ∧
    (∀ c t, x = c :: t → isJsWs c = false) ∧
    (∀ c, x.getLast? = some c → isJsWs c = false)

theorem matchDupComma_none_of_head (s : Str)
    (h : ∀ c t, s.dropWhile isJsWs = c :: t → c ≠ ',') : matchDupComma s = none := by
  unfold matchDupComma
  cases hd : s.dropWhile isJsWs with
  | nil => rfl
  | cons c t =>
    split
    · rename_i t2 heq
      injection heq with h1 h2
      exact absurd h1 (h _ _ hd)
    · rfl

theorem matchDupComma_sep {J : Str} {c : Char} {t : Str} (hJ : J = c :: t)
    (hc1 : isJsWs c = false) (hc2 : c ≠ ',') :
    matchDupComma (',' :: ' ' :: J) = none := by
  subst hJ
  have h2 : (' ' :: c :: t).dropWhile isJsWs = c :: t := by
    rw [List.dropWhile_cons, if_pos (by decide), List.dropWhile_cons, if_neg (by simp [hc1])]
  unfold matchDupComma
  rw [List.dropWhile_cons, if_neg (by decide)]
  show (match List.dropWhile isJsWs (' ' :: c :: t) with
    | ',' :: t4 => some (List.dropWhile (fun c => decide (c = ',')) t4)
    | _ => none) = none
  rw [h2]
  split
  · rename_i t4 heq
    injection heq with h1 h2
    exact absurd h1 hc2
  · rfl

theorem matchDupComma_entry_suffix {x u : Str} (hx : ',' ∉ x) (hu : u <:+ x) :
    matchDupComma u = none := by
  refine matchDupComma_none_of_head u (fun c t hd => ?_)
  intro hceq
  have hc : c ∈ u := (List.dropWhile_sublist isJsWs).subset (hd ▸ List.mem_cons_self c t)
  rw [hceq] at hc
  exact hx (hu.subset hc)

theorem matchDupComma_join_none :
    ∀ (entries : List Str), (∀ x ∈ entries, entryWF x) →
      ∀ u, u <:+ joinCommaSep entries → matchDupComma u = none := by
  intro entries
  induction entries with
  | nil =>
    intro _ u hu
    rw [List.suffix_nil.1 hu]
    rfl
  | cons x rest ih =>
    intro hall u hu
    cases rest with
    | nil =>
      exact matchDupComma_entry_suffix (hall x (List.mem_cons_self x _)).2.1 hu
    | cons e2 rest2 =>
      have hwf2 := hall e2 (List.mem_cons_of_mem x (List.mem_cons_self e2 _))
      obtain ⟨c2, t2, he2⟩ : ∃ c t, e2 = c :: t := by
        cases e2 with
        | nil => exact absurd rfl hwf2.1
        | cons a b => exact ⟨a, b, rfl⟩
      obtain ⟨tJ, hJ⟩ := joinCommaSep_cons_head c2 t2 rest2
      rw [← he2] at hJ
      have hc2ws : isJsWs c2 = false := hwf2.2.2.1 c2 t2 he2
      have hc2comma : c2 ≠ ',' := by
        intro h
        exact hwf2.2.1 (h ▸ (he2 ▸ List.mem_cons_self c2 t2))
      have hsub : u <:+ x ++ ',' :: ' ' :: joinCommaSep (e2 :: rest2) := hu
      rcases suffix_append_split hsub with h1 | ⟨u1, h3, h4, rfl⟩
      · rcases List.suffix_cons_iff.1 h1 with rfl | h2
        · exact matchDupComma_sep hJ hc2ws hc2comma
        rcases List.suffix_cons_iff.1 h2 with rfl | h5
        · refine matchDupComma_none_of_head _ (fun c t hd => ?_)
          rw [List.dropWhile_cons, if_pos (by decide), hJ, List.dropWhile_cons,
            if_neg (by simp [hc2ws])] at hd
          cases hd
          exact hc2comma
        · exact ih (fun y hy => hall y (List.mem_cons_of_mem x hy)) u h5
      · cases hd : u1.dropWhile isJsWs with
        | nil =>
          exfalso
          have hws : ∀ y ∈ u1, isJsWs y = true := List.dropWhile_eq_nil_iff.1 hd
          have hlast : u1.getLast? = some (u1.getLast h4) :=
            List.getLast?_eq_getLast_of_ne_nil h4
          obtain ⟨w, rfl⟩ := h3
          have hxlast : (w ++ u1).getLast? = u1.getLast? :=
            List.getLast?_append_of_ne_nil w h4
          have := (hall (w ++ u1) (List.mem_cons_self _ _)).2.2.2 (u1.getLast h4)
            (hxlast.trans hlast)
          exact absurd (hws _ (List.getLast_mem h4)) (by simp [this])
        | cons c t =>
          refine matchDupComma_none_of_head _ (fun c0 t0 hd0 => ?_)
          rw [List.dropWhile_append, hd] at hd0
          simp only [List.isEmpty_cons, List.cons_append] at hd0
          rw [if_neg (by simp)] at hd0
          cases hd0
          have hc : c ∈ u1 := (List.dropWhile_sublist isJsWs).subset
            (hd ▸ List.mem_cons_self c t)
          intro h
          exact (hall x (List.mem_cons_self x _)).2.1 (h ▸ h3.subset hc)

theorem collapseCommasF_id :
    ∀ (fuel : ℕ) (s : Str), (∀ u, u <:+ s → matchDupComma u = none) →
      collapseCommasF fuel s = s := by
  intro fuel
  induction fuel with
  | zero =>
    intro s _
    cases s <;> rfl
  | succ f ih =>
    intro s h
    cases s with
    | nil => rfl
    | cons c cs =>
      rw [collapseCommasF, h (c :: cs) List.suffix_rfl,
        ih cs (fun u hu => h u (hu.trans (List.suffix_cons c cs)))]

theorem stripVarTokensF_id :
    ∀ (fuel : ℕ) (s : Str), ¬ ("var(".toList <:+: s) → stripVarTokensF fuel s = s := by
  intro fuel
  induction fuel with
  | zero =>
    intro s _
    cases s <;> rfl
  | succ f ih =>
    intro s h
    cases s with
    | nil => rfl
    | cons c cs =>
      rw [stripVarTokensF, if_neg, ih cs (fun hc => h (List.infix_cons hc))]
      intro hpre
      exact h (List.isPrefixOf_iff_prefix.1 hpre).isInfix

theorem trimStr_id (s : Str) (hh : ∀ c t, s = c :: t → isJsWs c = false)
    (hl : ∀ c, s.getLast? = some c → isJsWs c = false) : trimStr s = s := by
  unfold trimStr
  rw [dropWhile_id_of_head s hh, dropWhile_id_of_head, List.reverse_reverse]
  intro c t hr
  refine hl c ?_
  rw [← List.head?_reverse, hr]
  rfl

/-- One entry of a CSS font stack as a user writes it: one of the three
known `next/font` CSS-variable tokens, or a plain family name. -/
inductive FontEntry where
  | jetbrains : FontEntry
  | fira : FontEntry
  | sourcecode : FontEntry
  | plain (s : Str) : FontEntry
deriving DecidableEq

/-- The text of an entry in the input font-family string. -/
def FontEntry.render : FontEntry → Str
  | .jetbrains => tokJetbrains
  | .fira => tokFira
  | .sourcecode => tokSourcecode
  | .plain s => s

/-- The text of an entry after token substitution (the quoted family name
the source substitutes for each known token). -/
def FontEntry.subst : FontEntry → Str
  | .jetbrains => quotedJetbrains
  | .fira => quotedFira
  | .sourcecode => quotedSourcecode
  | .plain s => s

/-- Entry text after the first substitution pass only. -/
def rend1 : FontEntry → Str
  | .jetbrains => quotedJetbrains
  | e => e.render

/-- Entry text after the first two substitution passes. -/
def rend2 : FontEntry → Str
  | .jetbrains => quotedJetbrains
  | .fira => quotedFira
  | e => e.render

def renderStack (es : List FontEntry) : Str := joinCommaSep (es.map FontEntry.render)

def substStack (es : List FontEntry) : Str := joinCommaSep (es.map FontEntry.subst)

/-- Well-formedness of a plain entry, decidably: nonempty, comma-free,
`var(`-free, and neither starting nor ending in whitespace. -/
def entryOKstr (s : Str) : Bool :=
  (match s with
   | [] => false
   | c :: _ => !isJsWs c) &&
  (match s.getLast? with
   | some d => !isJsWs d
   | none => false) &&
  !(decide (',' ∈ s)) && !(containsStr "var(".toList s)

def FontEntry.entryOK : FontEntry → Bool
  | .plain s => entryOKstr s
  | _ => true

theorem entryOKstr_spec {s : Str} (h : entryOKstr s = true) :
    s ≠ [] ∧ ',' ∉ s ∧ (∀ c t, s = c :: t → isJsWs c = false) ∧
      (∀ c, s.getLast? = some c → isJsWs c = false) ∧
      ¬ ("var(".toList <:+: s) := by
  unfold entryOKstr at h
  rw [Bool.and_eq_true, Bool.and_eq_true, Bool.and_eq_true] at h
  obtain ⟨⟨⟨h1, h2⟩, h3⟩, h4⟩ := h
  refine ⟨?_, ?_, ?_, ?_, ?_⟩
  · intro hnil
    subst hnil
    simp at h1
  · intro hmem
    rw [Bool.not_eq_true', decide_eq_false_iff_not] at h3
    exact h3 hmem
  · intro c t hct
    subst hct
    simpa using h1
  · intro c hc
    rw [hc] at h2
    simpa using h2
  · rw [Bool.not_eq_true'] at h4
    exact (containsStr_false_iff _ _).1 h4

theorem entryWF_of_entryOKstr {s : Str} (h : entryOKstr s = true) : entryWF s := by
  obtain ⟨h1, h2, h3, h4, _⟩ := entryOKstr_spec h
  exact ⟨h1, h2, h3, h4⟩

theorem var_infix_tokJetbrains : "var(".toList <:+: tokJetbrains :=
  (List.isPrefixOf_iff_prefix.1 (by with_unfolding_all decide)).isInfix

theorem var_infix_tokFira : "var(".toList <:+: tokFira :=
  (List.isPrefixOf_iff_prefix.1 (by with_unfolding_all decide)).isInfix

theorem var_infix_tokSourcecode : "var(".toList <:+: tokSourcecode :=
  (List.isPrefixOf_iff_prefix.1 (by with_unfolding_all decide)).isInfix

theorem plain_not_infix_tok {s : Str} (h : ¬ ("var(".toList <:+: s))
    {tok : Str} (htok : "var(".toList <:+: tok) : ¬ tok <:+: s :=
  fun hc => h (htok.trans hc)

theorem plain_ne_tok {s : Str} (h : ¬ ("var(".toList <:+: s))
    {tok : Str} (htok : "var(".toList <:+: tok) : s ≠ tok :=
  fun hc => h (hc ▸ htok)

theorem stage1_cond (es : List FontEntry) (hok : ∀ e ∈ es, e.entryOK = true) :
    ∀ x ∈ es.map FontEntry.render, x = tokJetbrains ∨ ¬ tokJetbrains <:+: x := by
  intro x hx
  rw [List.mem_map] at hx
  obtain ⟨e, he, rfl⟩ := hx
  cases e with
  | jetbrains => exact Or.inl rfl
  | fira => exact Or.inr ((containsStr_false_iff _ _).1 (by with_unfolding_all decide))
  | sourcecode => exact Or.inr ((containsStr_false_iff _ _).1 (by with_unfolding_all decide))
  | plain s =>
    exact Or.inr (plain_not_infix_tok (entryOKstr_spec (hok _ he)).2.2.2.2
      var_infix_tokJetbrains)

theorem stage1_entry (e : FontEntry) (hok : e.entryOK = true) :
    (if e.render = tokJetbrains then quotedJetbrains else e.render) = rend1 e := by
  cases e with
  | jetbrains =>
    simp only [FontEntry.render, rend1]
    rw [if_pos trivial]
  | fira =>
    simp only [FontEntry.render, rend1]
    rw [if_neg (by with_unfolding_all decide)]
  | sourcecode =>
    simp only [FontEntry.render, rend1]
    rw [if_neg (by with_unfolding_all decide)]
  | plain s =>
    simp only [FontEntry.render, rend1]
    rw [if_neg (plain_ne_tok (entryOKstr_spec hok).2.2.2.2 var_infix_tokJetbrains)]

theorem stage1_eq (es : List FontEntry) (hok : ∀ e ∈ es, e.entryOK = true) :
    replaceAll tokJetbrains quotedJetbrains (renderStack es) =
      joinCommaSep (es.map rend1) := by
  unfold replaceAll renderStack
  rw [RA_join tokJetbrains quotedJetbrains (by with_unfolding_all decide)
      (by with_unfolding_all decide) (by with_unfolding_all decide)
      (es.map FontEntry.render) _ le_rfl (stage1_cond es hok), List.map_map]
  exact congrArg joinCommaSep
    (List.map_congr_left (fun e he => stage1_entry e (hok e he)))

theorem stage2_cond (es : List FontEntry) (hok : ∀ e ∈ es, e.entryOK = true) :
    ∀ x ∈ es.map rend1, x = tokFira ∨ ¬ tokFira <:+: x := by
  intro x hx
  rw [List.mem_map] at hx
  obtain ⟨e, he, rfl⟩ := hx
  cases e with
  | jetbrains => exact Or.inr ((containsStr_false_iff _ _).1 (by with_unfolding_all decide))
  | fira => exact Or.inl rfl
  | sourcecode => exact Or.inr ((containsStr_false_iff _ _).1 (by with_unfolding_all decide))
  | plain s =>
    exact Or.inr (plain_not_infix_tok (entryOKstr_spec (hok _ he)).2.2.2.2
      var_infix_tokFira)

theorem stage2_entry (e : FontEntry) (hok : e.entryOK = true) :
    (if rend1 e = tokFira then quotedFira else rend1 e) = rend2 e := by
  cases e with
  | jetbrains =>
    simp only [rend1, rend2]
    rw [if_neg (by with_unfolding_all decide)]
  | fira =>
    simp only [rend1, rend2, FontEntry.render]
    rw [if_pos trivial]
  | sourcecode =>
    simp only [rend1, rend2, FontEntry.render]
    rw [if_neg (by with_unfolding_all decide)]
  | plain s =>
    simp only [rend1, rend2, FontEntry.render]
    rw [if_neg (plain_ne_tok (entryOKstr_spec hok).2.2.2.2 var_infix_tokFira)]

theorem stage2_eq (es : List FontEntry) (hok : ∀ e ∈ es, e.entryOK = true) :
    replaceAll tokFira quotedFira (joinCommaSep (es.map rend1)) =
      joinCommaSep (es.map rend2) := by
  unfold replaceAll
  rw [RA_join tokFira quotedFira (by with_unfolding_all decide)
      (by with_unfolding_all decide) (by with_unfolding_all decide)
      (es.map rend1) _ le_rfl (stage2_cond es hok), List.map_map]
  exact congrArg joinCommaSep
    (List.map_congr_left (fun e he => stage2_entry e (hok e he)))

theorem stage3_cond (es : List FontEntry) (hok : ∀ e ∈ es, e.entryOK = true) :
    ∀ x ∈ es.map rend2, x = tokSourcecode ∨ ¬ tokSourcecode <:+: x := by
  intro x hx
  rw [List.mem_map] at hx
  obtain ⟨e, he, rfl⟩ := hx
  cases e with
  | jetbrains => exact Or.inr ((containsStr_false_iff _ _).1 (by with_unfolding_all decide))
  | fira => exact Or.inr ((containsStr_false_iff _ _).1 (by with_unfolding_all decide))
  | sourcecode => exact Or.inl rfl
  | plain s =>
    exact Or.inr (plain_not_infix_tok (entryOKstr_spec (hok _ he)).2.2.2.2
      var_infix_tokSourcecode)

theorem stage3_entry (e : FontEntry) (hok : e.entryOK = true) :
    (if rend2 e = tokSourcecode then quotedSourcecode else rend2 e) = e.subst := by
  cases e with
  | jetbrains =>
    simp only [rend2, FontEntry.subst]
    rw [if_neg (by with_unfolding_all decide)]
  | fira =>
    simp only [rend2, FontEntry.subst]
    rw [if_neg (by with_unfolding_all decide)]
  | sourcecode =>
    simp only [rend2, FontEntry.subst, FontEntry.render]
    rw [if_pos trivial]
  | plain s =>
    simp only [rend2, FontEntry.subst, FontEntry.render]
    rw [if_neg (plain_ne_tok (entryOKstr_spec hok).2.2.2.2 var_infix_tokSourcecode)]

theorem stage3_eq (es : List FontEntry) (hok : ∀ e ∈ es, e.entryOK = true) :
    replaceAll tokSourcecode quotedSourcecode (joinCommaSep (es.map rend2)) =
      substStack es := by
  unfold replaceAll substStack
  rw [RA_join tokSourcecode quotedSourcecode (by with_unfolding_all decide)
      (by with_unfolding_all decide) (by with_unfolding_all decide)
      (es.map rend2) _ le_rfl (stage3_cond es hok), List.map_map]
  exact congrArg joinCommaSep
    (List.map_congr_left (fun e he => stage3_entry e (hok e he)))

theorem substOK (es : List FontEntry) (hok : ∀ e ∈ es, e.entryOK = true) :
    ∀ x ∈ es.map FontEntry.subst, entryOKstr x = true := by
  intro x hx
  rw [List.mem_map] at hx
  obtain ⟨e, he, rfl⟩ := hx
  cases e with
  | jetbrains => with_unfolding_all decide
  | fira => with_unfolding_all decide
  | sourcecode => with_unfolding_all decide
  | plain s => exact hok _ he

/-- Master computation: on a well-formed rendered font stack, the whole
normalization pipeline reduces to per-entry token substitution followed by
the generic-family fallback check. -/
theorem normalize_renderStack (es : List FontEntry) (hne : es ≠ [])
    (hok : ∀ e ∈ es, e.entryOK = true) :
    normalizeFontFamily (renderStack es) =
      (if containsStr "monospace".toList (substStack es) ||
          containsStr "serif".toList (substStack es) ||
          containsStr "sans-serif".toList (substStack es) then substStack es
       else substStack es ++ ", monospace".toList) := by
  have hOKsub := substOK es hok
  have hWF : ∀ x ∈ es.map FontEntry.subst, entryWF x :=
    fun x hx => entryWF_of_entryOKstr (hOKsub x hx)
  have h4 : stripVarTokens (substStack es) = substStack es := by
    unfold stripVarTokens substStack
    exact stripVarTokensF_id _ _
      (not_infix_joinCommaSep (by with_unfolding_all decide)
        (by with_unfolding_all decide) (by with_unfolding_all decide) _
        (fun x hx => (entryOKstr_spec (hOKsub x hx)).2.2.2.2))
  have h5 : collapseCommas (substStack es) = substStack es := by
    unfold collapseCommas substStack
    exact collapseCommasF_id _ _
      (fun u hu => matchDupComma_join_none _ hWF u hu)
  have h6 : trimStr (substStack es) = substStack es := by
    obtain ⟨e0, rest, rfl⟩ : ∃ e0 rest, es = e0 :: rest := by
      cases es with
      | nil => exact absurd rfl hne
      | cons a b => exact ⟨a, b, rfl⟩
    have hWF0 : entryWF e0.subst :=
      hWF _ (by rw [List.map_cons]; exact List.mem_cons_self _ _)
    obtain ⟨c0, cs0, hc0⟩ : ∃ c t, FontEntry.subst e0 = c :: t := by
      cases hs : FontEntry.subst e0 with
      | nil => exact absurd hs hWF0.1
      | cons a b => exact ⟨a, b, rfl⟩
    obtain ⟨t0, ht0⟩ := joinCommaSep_cons_head c0 cs0 (rest.map FontEntry.subst)
    have hJ0 : substStack (e0 :: rest) = c0 :: t0 := by
      unfold substStack
      rw [List.map_cons, hc0]
      exact ht0
    have hmapne : (e0 :: rest).map FontEntry.subst ≠ [] := by simp
    have hxl? : ((e0 :: rest).map FontEntry.subst).getLast? =
        some (((e0 :: rest).map FontEntry.subst).getLast hmapne) :=
      List.getLast?_eq_getLast_of_ne_nil hmapne
    have hJl : (substStack (e0 :: rest)).getLast? =
        (((e0 :: rest).map FontEntry.subst).getLast hmapne).getLast? := by
      unfold substStack
      exact joinCommaSep_getLast _ _ hxl? (fun x hx => (hWF x hx).1)
    refine trimStr_id _ (fun c t hct => ?_) (fun c hc => ?_)
    · rw [hJ0] at hct
      injection hct with hc1 hc2
      exact hc1 ▸ hWF0.2.2.1 c0 cs0 hc0
    · rw [hJl] at hc
      exact (hWF _ (List.getLast_mem hmapne)).2.2.2 c hc
  have h1 := stage1_eq es hok
  have h2 := stage2_eq es hok
  have h3 := stage3_eq es hok
  simp only [normalizeFontFamily]
  rw [h1, h2, h3, h4, h5, h6]

/-- Claim C7 (amended): for a well-formed font stack — a nonempty `", "`-joined
list of entries, each either a known `next/font` token or a plain family name
that is nonempty, comma-free, `var(`-free and not whitespace-padded — the
output of `normalizeFontFamily` contains the quoted family name substituted
for every entry, contains no raw token and no `var(` occurrence at all, and
when the input contains no generic family the output is exactly the
substituted stack with a single `", monospace"` fallback appended. -/
theorem normalizeFontFamily_amended (es : List FontEntry) (hne : es ≠ [])
    (hok : ∀ e ∈ es, e.entryOK = true) :
    (∀ e ∈ es, containsStr e.subst (normalizeFontFamily (renderStack es)) = true) ∧
    containsStr "var(".toList (normalizeFontFamily (renderStack es)) = false ∧
    (∀ tok ∈ [tokJetbrains, tokFira, tokSourcecode],
      containsStr tok (normalizeFontFamily (renderStack es)) = false) ∧
    (containsStr "monospace".toList (renderStack es) = false →
      containsStr "serif".toList (renderStack es) = false →
      normalizeFontFamily (renderStack es) =
        substStack es ++ ", monospace".toList ∧
      containsStr "monospace".toList (substStack es) = false) := by
  have hM := normalize_renderStack es hne hok
  have hOKsub := substOK es hok
  have hvarJ : ¬ "var(".toList <:+: substStack es := by
    unfold substStack
    exact not_infix_joinCommaSep (by with_unfolding_all decide)
      (by with_unfolding_all decide) (by with_unfolding_all decide) _
      (fun x hx => (entryOKstr_spec (hOKsub x hx)).2.2.2.2)
  have hsfx : ", monospace".toList = ',' :: ' ' :: "monospace".toList := by
    with_unfolding_all decide
  have hvarA : ¬ "var(".toList <:+: substStack es ++ ", monospace".toList := by
    rw [hsfx]
    exact not_infix_append_head hvarJ
      ((containsStr_false_iff _ _).1 (by with_unfolding_all decide))
      (by with_unfolding_all decide)
  have hvarX : ¬ "var(".toList <:+: normalizeFontFamily (renderStack es) := by
    rw [hM]
    by_cases hg : (containsStr "monospace".toList (substStack es) ||
        containsStr "serif".toList (substStack es) ||
        containsStr "sans-serif".toList (substStack es)) = true
    · rw [if_pos hg]
      exact hvarJ
    · rw [if_neg hg]
      exact hvarA
  refine ⟨?_, (containsStr_false_iff _ _).2 hvarX, ?_, ?_⟩
  · intro e he
    rw [containsStr_eq_true_iff]
    have hJ : e.subst <:+: substStack es := by
      unfold substStack
      exact infix_joinCommaSep_of_mem _ _ (List.mem_map_of_mem _ he)
    rw [hM]
    by_cases hg : (containsStr "monospace".toList (substStack es) ||
        containsStr "serif".toList (substStack es) ||
        containsStr "sans-serif".toList (substStack es)) = true
    · rw [if_pos hg]
      exact hJ
    · rw [if_neg hg]
      exact hJ.trans (List.prefix_append _ _).isInfix
  · intro tok htok
    rw [containsStr_false_iff]
    simp only [List.mem_cons, List.not_mem_nil, or_false] at htok
    rcases htok with rfl | rfl | rfl
    · exact plain_not_infix_tok hvarX var_infix_tokJetbrains
    · exact plain_not_infix_tok hvarX var_infix_tokFira
    · exact plain_not_infix_tok hvarX var_infix_tokSourcecode
  · intro hmono hserif
    have hplainJ : ∀ g : Str, g ≠ [] → ',' ∉ g → ' ' ∉ g →
        containsStr g quotedJetbrains = false →
        containsStr g quotedFira = false →
        containsStr g quotedSourcecode = false →
        containsStr g (renderStack es) = false → ¬ g <:+: substStack es := by
      intro g hg1 hg2 hg3 hq1 hq2 hq3 hren
      unfold substStack
      refine not_infix_joinCommaSep hg1 hg2 hg3 _ ?_
      intro x hx
      rw [List.mem_map] at hx
      obtain ⟨e, he, rfl⟩ := hx
      cases e with
      | jetbrains => exact (containsStr_false_iff _ _).1 hq1
      | fira => exact (containsStr_false_iff _ _).1 hq2
      | sourcecode => exact (containsStr_false_iff _ _).1 hq3
      | plain s =>
        simp only [FontEntry.subst]
        intro hc
        have hs : s <:+: renderStack es := by
          unfold renderStack
          refine infix_joinCommaSep_of_mem _ _ ?_
          rw [List.mem_map]
          exact ⟨FontEntry.plain s, he, rfl⟩
        exact absurd ((containsStr_eq_true_iff _ _).2 (hc.trans hs))
          (by rw [hren]; simp)
    have hmJ : containsStr "monospace".toList (substStack es) = false := by
      rw [containsStr_false_iff]
      exact hplainJ _ (by with_unfolding_all decide) (by with_unfolding_all decide)
        (by with_unfolding_all decide) (by with_unfolding_all decide)
        (by with_unfolding_all decide) (by with_unfolding_all decide) hmono
    have hsJ : containsStr "serif".toList (substStack es) = false := by
      rw [containsStr_false_iff]
      exact hplainJ _ (by with_unfolding_all decide) (by with_unfolding_all decide)
        (by with_unfolding_all decide) (by with_unfolding_all decide)
        (by with_unfolding_all decide) (by with_unfolding_all decide) hserif
    have hssJ : containsStr "sans-serif".toList (substStack es) = false := by
      rw [containsStr_false_iff]
      intro hc
      have hse : "serif".toList <:+: substStack es :=
        List.IsInfix.trans ((containsStr_eq_true_iff _ _).1 (by with_unfolding_all decide))
          hc
      exact absurd ((containsStr_eq_true_iff _ _).2 hse) (by rw [hsJ]; simp)
    refine ⟨?_, hmJ⟩
    rw [hM, if_neg (by rw [hmJ, hsJ, hssJ]; simp)]

/-- A concrete well-formed stack: the JetBrains token followed by a plain
family name. -/
def sampleStack : List FontEntry := [FontEntry.jetbrains, FontEntry.plain "Menlo".toList]

theorem normalizeFontFamily_amended_witness :
    (sampleStack ≠ [] ∧ ∀ e ∈ sampleStack, e.entryOK = true) ∧
    ((∀ e ∈ sampleStack,
        containsStr e.subst (normalizeFontFamily (renderStack sampleStack)) = true) ∧
      containsStr "var(".toList (normalizeFontFamily (renderStack sampleStack)) = false ∧
      (∀ tok ∈ [tokJetbrains, tokFira, tokSourcecode],
        containsStr tok (normalizeFontFamily (renderStack sampleStack)) = false) ∧
      (containsStr "monospace".toList (renderStack sampleStack) = false →
        containsStr "serif".toList (renderStack sampleStack) = false →
        normalizeFontFamily (renderStack sampleStack) =
          substStack sampleStack ++ ", monospace".toList ∧
        containsStr "monospace".toList (substStack sampleStack) = false)) :=
  ⟨⟨by with_unfolding_all decide, by with_unfolding_all decide⟩,
    normalizeFontFamily_amended sampleStack (by with_unfolding_all decide)
      (by with_unfolding_all decide)⟩
